import Mathlib

/-
Verification model of `whisper/model.py` (transformer inference core).

Tensors are modelled over exact real numbers: one batch element at a time
(batch elements are processed independently by every operation of the file),
a sequence is a length together with a `position → channel → ℝ` table.
Numeric dtype casts (`.float()`, `.to(dtype)`, `.detach()`) are identities on
values in this model; the dtype bookkeeping itself is modelled separately by
`DType`/`torchFloat`.  The only IEEE non-finiteness that the code manipulates
on purpose is the `-inf` causal-mask entries, modelled by `MVal = Option ℝ`
with `none` standing for negative infinity (`exp`-image 0 under softmax).
The float pathology of `sinusoids` (division by zero for `channels = 2`) is
modelled exactly by the separate `FVal` type further down.
-/

set_option maxHeartbeats 1600000

noncomputable section

open Finset

/-- Slot of the score matrix after adding the additive mask: `some x` is the
finite float value `x`, `none` is IEEE negative infinity. -/
abbrev MVal := Option ℝ

/-- Addition on masked values: adding negative infinity to a finite float
gives negative infinity. -/
def mvAdd : MVal → MVal → MVal
  | some a, some b => some (a + b)
  | _, _ => none

/-- Exponential as applied by softmax: `exp (-inf) = 0` exactly in IEEE. -/
def mexp : MVal → ℝ
  | some a => Real.exp a
  | none => 0

/-- One batch element of a rank-3 tensor `(batch, seq, state)`:
a sequence length plus a `position → channel → value` table (entries with
position at or above `len` are never consumed by the operations below). -/
structure TSeq where
  len : ℕ
  val : ℕ → ℕ → ℝ

/-- Pointwise (per position) application, e.g. applying a Linear layer to
every position of a sequence. -/
def TSeq.map (f : (ℕ → ℝ) → (ℕ → ℝ)) (x : TSeq) : TSeq :=
  ⟨x.len, fun t => f (x.val t)⟩

/-- Elementwise tensor addition `x + y` (shapes agree in every use site). -/
def TSeq.add (x y : TSeq) : TSeq :=
  ⟨x.len, fun t i => x.val t i + y.val t i⟩

/-- Model of `torch.cat([a, b], dim=1)`. -/
def TSeq.append (a b : TSeq) : TSeq :=
  ⟨a.len + b.len, fun t => if t < a.len then a.val t else b.val (t - a.len)⟩

@[simp] lemma TSeq.map_len (f : (ℕ → ℝ) → (ℕ → ℝ)) (x : TSeq) : (x.map f).len = x.len := rfl
@[simp] lemma TSeq.map_val (f : (ℕ → ℝ) → (ℕ → ℝ)) (x : TSeq) (t : ℕ) :
    (x.map f).val t = f (x.val t) := rfl
@[simp] lemma TSeq.add_len (x y : TSeq) : (x.add y).len = x.len := rfl
@[simp] lemma TSeq.add_val (x y : TSeq) (t i : ℕ) :
    (x.add y).val t i = x.val t i + y.val t i := rfl
@[simp] lemma TSeq.append_len (a b : TSeq) : (a.append b).len = a.len + b.len := rfl

lemma TSeq.append_val_left (a b : TSeq) (t : ℕ) (h : t < a.len) :
    (a.append b).val t = a.val t := by
  simp [TSeq.append, h]

lemma TSeq.append_val_right (a b : TSeq) (t : ℕ) (h : ¬ t < a.len) :
    (a.append b).val t = b.val (t - a.len) := by
  simp [TSeq.append, h]

/-- Model of `class LayerNorm(nn.LayerNorm)` of the source: normalisation over
the last (feature) axis with learned scale and shift; the source computes in
float32 and casts back, which is the identity on exact reals. `eps` is the
`nn.LayerNorm` epsilon (1e-5 for every layer the model constructs). -/
structure LayerNorm where
  weight : ℕ → ℝ
  bias : ℕ → ℝ
  eps : ℝ

/-- Forward pass of `LayerNorm` on one position (feature dimension `d`). -/
def LayerNorm.forward (d : ℕ) (ln : LayerNorm) (x : ℕ → ℝ) : ℕ → ℝ :=
  let mu := (∑ i ∈ Finset.range d, x i) / d
  let var := (∑ i ∈ Finset.range d, (x i - mu) ^ 2) / d
  fun i => (x i - mu) / Real.sqrt (var + ln.eps) * ln.weight i + ln.bias i

/-- Model of `class Linear(nn.Linear)`: weights/bias are cast to the input
dtype (identity on values here); `bias = none` models `bias=False` as used by
the key projection. -/
structure Linear where
  weight : ℕ → ℕ → ℝ
  bias : Option (ℕ → ℝ)

/-- Forward pass of `Linear` on one position: `x ↦ W x + b`, input dim `din`. -/
def Linear.forward (din : ℕ) (l : Linear) (x : ℕ → ℝ) : ℕ → ℝ :=
  fun o => (∑ i ∈ Finset.range din, l.weight o i * x i) +
    (match l.bias with
     | some b => b o
     | none => 0)

/-- Gauss error function, used by the exact (non-approximate) GELU that
`F.gelu` / `nn.GELU()` compute by default. -/
def erf (x : ℝ) : ℝ :=
  2 / Real.sqrt Real.pi * intervalIntegral (fun t => Real.exp (-(t ^ 2))) 0 x MeasureTheory.volume

/-- Exact GELU activation as used in the source. -/
def gelu (x : ℝ) : ℝ := 0.5 * x * (1 + erf (x / Real.sqrt 2))

/-- Numeric precision tag of a tensor. -/
inductive DType
  | half
  | single
  | double
deriving DecidableEq

/-- Bit width of the dtype. -/
def DType.bits : DType → ℕ
  | half => 16
  | single => 32
  | double => 64

/-- Model of the `.float()` cast at the end of `TextDecoder.forward`:
whatever the compute dtype, the result is float32. -/
def torchFloat (_ : DType) : DType := DType.single

/-- Identity of a key or value projection module, standing for the Python
object identity used as dictionary key by the KV cache (`cache[module]`). -/
inductive Proj
  | key
  | value
deriving DecidableEq

/-- Identity of one `Linear` projection module inside the decoder:
its layer index, whether it belongs to the cross-attention sub-module, and
whether it is the key or the value projection. -/
structure ModuleId where
  layer : ℕ
  crossAttn : Bool
  proj : Proj
deriving DecidableEq

/-- The KV cache: the Python `dict` mapping module identity to cached tensor,
modelled as an insertion-ordered association list (Python dicts preserve
insertion order, and `next(iter(cache.values()))` reads the first entry). -/
abbrev Cache := List (ModuleId × TSeq)

/-- Dictionary lookup `cache[module]` / `module in cache`. -/
def Cache.find : Cache → ModuleId → Option TSeq
  | [], _ => none
  | (i, t) :: c, id => if i = id then some t else Cache.find c id

/-- Dictionary update `cache[module] = t`: replaces in place if present
(keeping insertion order), else appends at the end. -/
def Cache.insert : Cache → ModuleId → TSeq → Cache
  | [], id, t => [(id, t)]
  | (i, u) :: c, id, t => if i = id then (i, t) :: c else (i, u) :: Cache.insert c id t

/-- Model of the hook body `save_to_cache(module, _, output)` installed by
`Whisper.install_kv_cache_hooks`: if the module is absent from the cache or
the new output is longer than `n_text_ctx`, store the output as-is; otherwise
store the concatenation of the cached tensor and the output along the
sequence axis (`.detach()` is the identity on values here).  Returns the
stored tensor (which replaces the module's output) and the updated cache. -/
def save_to_cache (n_text_ctx : ℕ) (cache : Cache) (id : ModuleId) (output : TSeq) :
    TSeq × Cache :=
  match Cache.find cache id with
  | none => (output, Cache.insert cache id output)
  | some prev =>
    if output.len > n_text_ctx then
      (output, Cache.insert cache id output)
    else
      (prev.append output, Cache.insert cache id (prev.append output))

/-- Head dimension `n_state // n_head`. -/
def headDim (d H : ℕ) : ℕ := d / H

/-- The `(n_state // n_head) ** -0.25` scaling applied to both `q` and `k`. -/
def attnScale (d H : ℕ) : ℝ := Real.rpow ((headDim d H : ℕ) : ℝ) (-(1 / 4 : ℝ))

/-- Entry `i` of head `h` of the scaled, head-split query at position `t`. -/
def qHead (d H : ℕ) (q : TSeq) (h t i : ℕ) : ℝ :=
  q.val t (h * headDim d H + i) * attnScale d H

/-- Entry `i` of head `h` of the scaled, head-split key at position `s`. -/
def kHead (d H : ℕ) (k : TSeq) (h s i : ℕ) : ℝ :=
  k.val s (h * headDim d H + i) * attnScale d H

/-- Entry `i` of head `h` of the head-split (unscaled) value at position `s`. -/
def vHead (d H : ℕ) (v : TSeq) (h s i : ℕ) : ℝ :=
  v.val s (h * headDim d H + i)

/-- Pre-mask attention score `q @ k` for head `h`, query `t`, key `s`. -/
def qkRaw (d H : ℕ) (q k : TSeq) (h t s : ℕ) : ℝ :=
  ∑ i ∈ Finset.range (headDim d H), qHead d H q h t i * kHead d H k h s i

/-- Post-softmax attention weight of query `t` on key `s`, out of `nk` keys,
for one head's masked score row: `softmax(qk.float(), dim=-1)`. -/
def attnW (row : ℕ → ℕ → MVal) (nk t s : ℕ) : ℝ :=
  mexp (row t s) / ∑ j ∈ Finset.range nk, mexp (row t j)

/-- The `(w @ v).permute(0, 2, 1, 3).flatten(start_dim=2)` step: weighted sum
of values per head, heads re-concatenated into `n_state` channels. -/
def attnOut (d H : ℕ) (v : TSeq) (mqk : ℕ → ℕ → ℕ → MVal) (nq nk : ℕ) : TSeq :=
  ⟨nq, fun t c =>
    ∑ s ∈ Finset.range nk,
      attnW (mqk (c / headDim d H)) nk t s * vHead d H v (c / headDim d H) s (c % headDim d H)⟩

/-- Broadcasting of the mask slice `mask[:n_ctx, :n_ctx]` (shape `(nq, nq)`)
against the score matrix of shape `(nq, nk)`.  The repository exercises
exactly two shapes: `nk = nq` (a full, cache-less pass) and `nq = 1` (an
incremental step, where the `(1, 1)` slice broadcasts along the key axis).
Every other combination makes the torch call raise (at the addition itself,
or for `nk = 1 ≠ nq` at the subsequent `w @ v`), modelled as `none`. -/
def applyMask (m : ℕ → ℕ → MVal) (nq nk : ℕ) : Option (ℕ → ℕ → MVal) :=
  if nk = nq then some (fun t s => m t s)
  else if nq = 1 then some (fun _ _ => m 0 0)
  else none

/-- Model of `MultiHeadAttention.qkv_attention`: head split, scaling of `q`
and `k`, scores, optional additive mask, softmax, weighted values; returns
the output sequence and the (detached, upcast) masked score matrix. -/
def qkv_attention (d H : ℕ) (q k v : TSeq) (mask : Option (ℕ → ℕ → MVal)) :
    Option (TSeq × (ℕ → ℕ → ℕ → MVal)) :=
  match mask with
  | none =>
    let mqk := fun h t s => (some (qkRaw d H q k h t s) : MVal)
    some (attnOut d H v mqk q.len k.len, mqk)
  | some m =>
    (applyMask m q.len k.len).map fun ms =>
      let mqk := fun h t s => mvAdd (some (qkRaw d H q k h t s)) (ms t s)
      (attnOut d H v mqk q.len k.len, mqk)

/-- Weights of `MultiHeadAttention`: query/key/value/out projections
(the key projection is built with `bias=False`). -/
structure MultiHeadAttention where
  query : Linear
  key : Linear
  value : Linear
  out : Linear

/-- The query projection `q = self.query(x)`, always computed from `x`. -/
def MultiHeadAttention.queryOf (m : MultiHeadAttention) (d : ℕ) (x : TSeq) : TSeq :=
  x.map (Linear.forward d m.query)

/-- Fresh key/value projections from `src` (`x` for self-attention, `xa` for
cross-attention).  When a cache is installed, the forward hooks on the key
and value `Linear` modules fire: `save_to_cache` stores/concatenates and its
return value replaces the projection output. -/
def MultiHeadAttention.freshKV (m : MultiHeadAttention) (d nctx : ℕ) (idK idV : ModuleId)
    (src : TSeq) (kv : Option Cache) : TSeq × TSeq × Option Cache :=
  let kRaw := src.map (Linear.forward d m.key)
  let vRaw := src.map (Linear.forward d m.value)
  match kv with
  | none => (kRaw, vRaw, none)
  | some c =>
    let pK := save_to_cache nctx c idK kRaw
    let pV := save_to_cache nctx pK.2 idV vRaw
    (pK.1, pV.1, some pV.2)

/-- The key/value source selection of `MultiHeadAttention.forward`:
`if kv_cache is None or xa is None or self.key not in kv_cache`, compute the
projections fresh (from `x` if `xa is None` else from `xa`); otherwise reuse
`kv_cache[self.key]` and `kv_cache[self.value]` verbatim (a missing value
entry would be a `KeyError`, modelled as `none`; it never occurs since the
hooks always insert key and value together). -/
def MultiHeadAttention.kvPair (m : MultiHeadAttention) (d nctx : ℕ) (idK idV : ModuleId)
    (x : TSeq) (xa : Option TSeq) (kv : Option Cache) : Option (TSeq × TSeq × Option Cache) :=
  match kv, xa with
  | none, _ => some (m.freshKV d nctx idK idV (xa.getD x) none)
  | some c, none => some (m.freshKV d nctx idK idV x (some c))
  | some c, some a =>
    match Cache.find c idK with
    | none => some (m.freshKV d nctx idK idV a (some c))
    | some ck =>
      match Cache.find c idV with
      | none => none
      | some cv => some (ck, cv, some c)

/-- Model of `MultiHeadAttention.forward` (with the cache hooks of
`install_kv_cache_hooks` active whenever a cache is supplied, as in the
source, where the cache dict and the hooks are installed together). -/
def MultiHeadAttention.forward (m : MultiHeadAttention) (d H nctx : ℕ) (idK idV : ModuleId)
    (x : TSeq) (xa : Option TSeq) (mask : Option (ℕ → ℕ → MVal)) (kv : Option Cache) :
    Option (TSeq × (ℕ → ℕ → ℕ → MVal) × Option Cache) :=
  match m.kvPair d nctx idK idV x xa kv with
  | none => none
  | some (k, v, kv') =>
    match qkv_attention d H (m.queryOf d x) k v mask with
    | none => none
    | some (wv, qk) => some (wv.map (Linear.forward d m.out), qk, kv')

/-- Weights of `ResidualAttentionBlock`: self-attention, optional
cross-attention (decoder blocks only), and the two `Linear` layers of the MLP
(`Linear(n_state, 4 n_state)`, GELU, `Linear(4 n_state, n_state)`). -/
structure ResidualAttentionBlock where
  attn : MultiHeadAttention
  attn_ln : LayerNorm
  cross_attn : Option (MultiHeadAttention × LayerNorm)
  mlp0 : Linear
  mlp2 : Linear
  mlp_ln : LayerNorm

/-- The feed-forward sub-layer with its residual:
`x + mlp(mlp_ln(x))` where `mlp = Linear ∘ GELU ∘ Linear`. -/
def mlpStep (d : ℕ) (b : ResidualAttentionBlock) (x : TSeq) : TSeq :=
  x.add (x.map (fun r o =>
    Linear.forward (4 * d) b.mlp2
      (fun j => gelu (Linear.forward d b.mlp0 (LayerNorm.forward d b.mlp_ln r) j)) o))

/-- Model of `ResidualAttentionBlock.forward`: pre-norm residual
self-attention (with mask and cache), optional pre-norm residual
cross-attention over `xa` (with cache, no mask), then the MLP.  `l` is the
block's layer index, identifying its projection modules in the cache. -/
def ResidualAttentionBlock.forward (d H nctx : ℕ) (l : ℕ) (b : ResidualAttentionBlock)
    (x : TSeq) (xa : Option TSeq) (mask : Option (ℕ → ℕ → MVal)) (kv : Option Cache) :
    Option (TSeq × Option Cache) :=
  match MultiHeadAttention.forward b.attn d H nctx ⟨l, false, Proj.key⟩ ⟨l, false, Proj.value⟩
      (x.map (LayerNorm.forward d b.attn_ln)) none mask kv with
  | none => none
  | some (a, _, kv1) =>
    let x1 := x.add a
    match b.cross_attn with
    | none => some (mlpStep d b x1, kv1)
    | some (cm, cln) =>
      match MultiHeadAttention.forward cm d H nctx ⟨l, true, Proj.key⟩ ⟨l, true, Proj.value⟩
          (x1.map (LayerNorm.forward d cln)) xa none kv1 with
      | none => none
      | some (ca, _, kv2) => some (mlpStep d b (x1.add ca), kv2)

/-- Sequential application of the residual blocks (the `for block in
self.blocks` loops of `AudioEncoder.forward` and `TextDecoder.forward`),
threading the mutable cache dict; `l` is the index of the first block. -/
def runBlocks (d H nctx : ℕ) :
    ℕ → List ResidualAttentionBlock → TSeq → Option TSeq → Option (ℕ → ℕ → MVal) →
    Option Cache → Option (TSeq × Option Cache)
  | _, [], x, _, _, kv => some (x, kv)
  | l, b :: bs, x, xa, mask, kv =>
    match ResidualAttentionBlock.forward d H nctx l b x xa mask kv with
    | none => none
    | some (x', kv') => runBlocks d H nctx (l + 1) bs x' xa mask kv'

/-- Model of `torch.triu_(diagonal)` applied to a matrix: entries with
`j - i >= diagonal` are kept, the rest are set to 0. -/
def triuKeep (a : ℕ → ℕ → MVal) (diagonal : ℤ) : ℕ → ℕ → MVal :=
  fun i j => if (j : ℤ) - (i : ℤ) ≥ diagonal then a i j else some 0

/-- The decoder's causal mask
`torch.empty(n_ctx, n_ctx).fill_(-np.inf).triu_(1)`: negative infinity
strictly above the diagonal, 0 on and below it.  (The registered buffer has
extent `(n_text_ctx, n_text_ctx)`; only the slice `[:n_ctx, :n_ctx]`,
`n_ctx ≤ n_text_ctx`, is ever read.) -/
def causalMask : ℕ → ℕ → MVal := triuKeep (fun _ _ => none) 1

/-- Weights and configuration of `TextDecoder`. -/
structure TextDecoder where
  n_vocab : ℕ
  n_ctx : ℕ
  n_state : ℕ
  n_head : ℕ
  token_embedding : ℕ → ℕ → ℝ
  positional_embedding : ℕ → ℕ → ℝ
  blocks : List ResidualAttentionBlock
  ln : LayerNorm

/-- The `offset` computation of `TextDecoder.forward`:
`next(iter(kv_cache.values())).shape[1] if kv_cache else 0` — the first
inserted cache entry's sequence length if the cache dict exists and is
non-empty, else 0. -/
def offsetOf : Option Cache → ℕ
  | some ((_, t) :: _) => t.len
  | _ => 0

/-- Token embedding plus the positional-embedding slice
`positional_embedding[offset : offset + n]` (row `t` of the slice is row
`offset + t` of the table). -/
def TextDecoder.embSeq (D : TextDecoder) (tokens : List ℕ) (offset : ℕ) : TSeq :=
  ⟨tokens.length, fun t i =>
    D.token_embedding (tokens.getD t 0) i + D.positional_embedding (offset + t) i⟩

/-- The weight-tied output projection of `TextDecoder.forward`:
`(ln(x) @ transpose(token_embedding.weight)).float()`. -/
def TextDecoder.logits (D : TextDecoder) (y : TSeq) : TSeq :=
  ⟨y.len, fun t v =>
    ∑ i ∈ Finset.range D.n_state, (y.map (LayerNorm.forward D.n_state D.ln)).val t i *
      D.token_embedding v i⟩

/-- Model of `TextDecoder.forward(x, xa, kv_cache)`: offset from the cache,
token plus positional embedding, the block stack with the causal mask, final
normalisation and weight-tied projection to vocabulary logits. -/
def TextDecoder.forward (D : TextDecoder) (tokens : List ℕ) (xa : TSeq)
    (kv : Option Cache) : Option (TSeq × Option Cache) :=
  let x := D.embSeq tokens (offsetOf kv)
  match runBlocks D.n_state D.n_head D.n_ctx 0 D.blocks x (some xa) (some causalMask) kv with
  | none => none
  | some (y, kv') => some (D.logits y, kv')

/-- One autoregressive decoding session: feed the tokens one at a time
through `TextDecoder.forward`, the KV cache (installed empty by
`install_kv_cache_hooks`) threaded through the calls; returns the logits of
the last step together with the final cache. -/
def decodeLast (D : TextDecoder) (xa : TSeq) : List ℕ → Cache → Option (TSeq × Cache)
  | [], _ => none
  | t :: ts, c =>
    match D.forward [t] xa (some c), ts with
    | some (lg, some c'), [] => some (lg, c')
    | some (_, some c'), _ :: _ => decodeLast D xa ts c'
    | _, _ => none

/-- Cache-free self-attention sub-layer (query, key and value all from `x`)
with an optional additive mask, as executed by a full-sequence pass where
the mask slice has exactly the score matrix's shape. -/
def selfAttnPure (m : MultiHeadAttention) (d H : ℕ) (mask : Option (ℕ → ℕ → MVal))
    (x : TSeq) : TSeq :=
  let q := m.queryOf d x
  let k := x.map (Linear.forward d m.key)
  let v := x.map (Linear.forward d m.value)
  let mqk := fun h t s =>
    match mask with
    | none => (some (qkRaw d H q k h t s) : MVal)
    | some mm => mvAdd (some (qkRaw d H q k h t s)) (mm t s)
  (attnOut d H v mqk q.len k.len).map (Linear.forward d m.out)

/-- Cache-free cross-attention sub-layer: query from `x`, key/value from
`xa`, no mask. -/
def crossAttnPure (m : MultiHeadAttention) (d H : ℕ) (x xa : TSeq) : TSeq :=
  let q := m.queryOf d x
  let k := xa.map (Linear.forward d m.key)
  let v := xa.map (Linear.forward d m.value)
  (attnOut d H v (fun h t s => (some (qkRaw d H q k h t s) : MVal)) q.len k.len).map
    (Linear.forward d m.out)

/-- Cache-free forward pass of one residual block.  When the block has a
cross-attention sub-module it always runs it, keys/values sourced from `xa`
when provided and from the (normalised) input itself when `xa` is absent —
mirroring the `x if xa is None else xa` selection of the source. -/
def blockPure (d H : ℕ) (mask : Option (ℕ → ℕ → MVal)) (b : ResidualAttentionBlock)
    (xa : Option TSeq) (x : TSeq) : TSeq :=
  let x1 := x.add (selfAttnPure b.attn d H mask (x.map (LayerNorm.forward d b.attn_ln)))
  let x2 :=
    match b.cross_attn with
    | none => x1
    | some (cm, cln) =>
      let xq := x1.map (LayerNorm.forward d cln)
      x1.add (crossAttnPure cm d H xq (xa.getD xq))
  mlpStep d b x2

/-- Cache-free sequential application of the residual blocks. -/
def runPure (d H : ℕ) (mask : Option (ℕ → ℕ → MVal)) :
    List ResidualAttentionBlock → Option TSeq → TSeq → TSeq
  | [], _, x => x
  | b :: bs, xa, x => runPure d H mask bs xa (blockPure d H mask b xa x)

/-- Output length of a 1-D convolution (`torch.nn.Conv1d`) over an input of
length `L` with kernel size `k`, stride `s`, padding `p` (valid for inputs
whose padded length reaches the kernel, i.e. `L + 2p ≥ k`). -/
def convOutLen (L k s p : ℕ) : ℕ := (L + 2 * p - k) / s + 1

/-- Weights of a `Conv1d` layer: `weight[out_channel][in_channel][tap]` and a
bias (the source's `Conv1d` casts them to the input dtype, identity here). -/
structure Conv1d where
  weight : ℕ → ℕ → ℕ → ℝ
  bias : ℕ → ℝ

/-- Forward pass of `Conv1d` over a `(channel, time)` table of length `L`:
zero padding `p` on both sides, stride `s`, kernel size `k`. -/
def Conv1d.forward (cv : Conv1d) (cin k s p L : ℕ) (x : ℕ → ℕ → ℝ) : ℕ → ℕ → ℝ :=
  fun o t =>
    (∑ c ∈ Finset.range cin, ∑ j ∈ Finset.range k,
      cv.weight o c j *
        (if p ≤ t * s + j ∧ t * s + j < L + p then x c (t * s + j - p) else 0)) + cv.bias o

/-- Weights and configuration of `AudioEncoder`.  `positional_embedding` is
the buffer registered at construction (`sinusoids(n_ctx, n_state)`, whose
float semantics are modelled separately below). -/
structure AudioEncoder where
  n_mels : ℕ
  n_ctx : ℕ
  n_state : ℕ
  n_head : ℕ
  conv1 : Conv1d
  conv2 : Conv1d
  blocks : List ResidualAttentionBlock
  ln_post : LayerNorm
  positional_embedding : ℕ → ℕ → ℝ

/-- Model of `AudioEncoder.forward(x)` over a `(n_mels, L)` mel spectrogram:
conv1 (kernel 3, pad 1) + GELU, conv2 (kernel 3, stride 2, pad 1) + GELU,
permute to `(time, channel)`, then the
`assert x.shape[1:] == self.positional_embedding.shape` — a fatal
`"incorrect audio shape"` error when the post-convolution shape disagrees
with the positional table's `(n_ctx, n_state)` — and only past the assert the
positional-embedding addition (inside `preBlocks`), the (mask-free,
cache-free) block stack and the final normalisation.  The inner `match` is
total: with no mask and no cache every block succeeds (`runBlocks_total`
below), so the `"unreachable"` arm is provably dead.  The convolution output
shapes are as modelled for inputs long enough for the kernels (`1 ≤ L`). -/
def AudioEncoder.preBlocks (E : AudioEncoder) (L : ℕ) (x : ℕ → ℕ → ℝ) : TSeq :=
  ⟨convOutLen (convOutLen L 3 1 1) 3 2 1, fun t c =>
    gelu (Conv1d.forward E.conv2 E.n_state 3 2 1 (convOutLen L 3 1 1)
      (fun c1 t1 => gelu (Conv1d.forward E.conv1 E.n_mels 3 1 1 L x c1 t1)) c t) +
    E.positional_embedding t c⟩

/-- Shape check plus the rest of `AudioEncoder.forward`. -/
def AudioEncoder.forward (E : AudioEncoder) (L : ℕ) (x : ℕ → ℕ → ℝ) :
    Except String TSeq :=
  if (convOutLen (convOutLen L 3 1 1) 3 2 1, E.n_state) = (E.n_ctx, E.n_state) then
    match runBlocks E.n_state E.n_head 0 0 E.blocks (E.preBlocks L x) none none none with
    | some (y, _) => Except.ok (y.map (LayerNorm.forward E.n_state E.ln_post))
    | none => Except.error "unreachable"
  else Except.error "incorrect audio shape"

/-- The `ModelDimensions` configuration record (Python ints). -/
structure ModelDimensions where
  n_mels : ℤ
  n_audio_ctx : ℤ
  n_audio_state : ℤ
  n_audio_head : ℤ
  n_audio_layer : ℤ
  n_vocab : ℤ
  n_text_ctx : ℤ
  n_text_state : ℤ
  n_text_head : ℤ
  n_text_layer : ℤ

/-- The `Whisper` model container (the fields the claims touch). -/
structure Whisper where
  dims : ModelDimensions
  encoder : AudioEncoder
  decoder : TextDecoder

/-- Model of the property `Whisper.is_multilingual`:
`self.dims.n_vocab >= 51865`. -/
def Whisper.is_multilingual (w : Whisper) : Bool :=
  w.dims.n_vocab ≥ 51865

/-- Model of the property `Whisper.num_languages`:
`self.dims.n_vocab - 51765 - int(self.is_multilingual)`. -/
def Whisper.num_languages (w : Whisper) : ℤ :=
  w.dims.n_vocab - 51765 - (if w.is_multilingual then 1 else 0)

/-- IEEE-754 double value as propagated through `sinusoids`: a finite real,
one of the two infinities, or NaN.  `sinusoids` is the one function of the
file whose documented behaviour hinges on these non-finite values (division
by `channels // 2 - 1 = 0` when `channels = 2`), so it is modelled in this
semantics rather than over plain reals. -/
inductive FVal
  | fin : ℝ → FVal
  | inf
  | ninf
  | nan

/-- Whether a float value is finite. -/
def FVal.isFin : FVal → Prop
  | fin _ => True
  | _ => False

/-- IEEE division of a float by a Python integer, as in
`np.log(max_timescale) / (channels // 2 - 1)`: division of a finite nonzero
value by zero gives a signed infinity, `0 / 0` gives NaN. -/
def FVal.divInt (a : FVal) (n : ℤ) : FVal :=
  match a with
  | FVal.fin x =>
    if n = 0 then
      if 0 < x then FVal.inf else if x < 0 then FVal.ninf else FVal.nan
    else FVal.fin (x / n)
  | FVal.inf => if 0 < n then FVal.inf else if n < 0 then FVal.ninf else FVal.nan
  | FVal.ninf => if 0 < n then FVal.ninf else if n < 0 then FVal.inf else FVal.nan
  | FVal.nan => FVal.nan

/-- IEEE negation. -/
def FVal.neg : FVal → FVal
  | FVal.fin x => FVal.fin (-x)
  | FVal.inf => FVal.ninf
  | FVal.ninf => FVal.inf
  | FVal.nan => FVal.nan

/-- IEEE multiplication of an integer (an `arange` entry) by a float:
`0 * ±inf = NaN`, anything times NaN is NaN. -/
def FVal.scaleInt (k : ℤ) (a : FVal) : FVal :=
  match a with
  | FVal.fin x => FVal.fin (k * x)
  | FVal.inf => if 0 < k then FVal.inf else if k < 0 then FVal.ninf else FVal.nan
  | FVal.ninf => if 0 < k then FVal.ninf else if k < 0 then FVal.inf else FVal.nan
  | FVal.nan => FVal.nan

/-- IEEE exponential: `exp(-inf) = 0`, `exp(NaN) = NaN`. -/
def FVal.exp : FVal → FVal
  | FVal.fin x => FVal.fin (Real.exp x)
  | FVal.inf => FVal.inf
  | FVal.ninf => FVal.fin 0
  | FVal.nan => FVal.nan

/-- IEEE sine: NaN on NaN and on the infinities. -/
def FVal.sin : FVal → FVal
  | FVal.fin x => FVal.fin (Real.sin x)
  | _ => FVal.nan

/-- IEEE cosine: NaN on NaN and on the infinities. -/
def FVal.cos : FVal → FVal
  | FVal.fin x => FVal.fin (Real.cos x)
  | _ => FVal.nan

/-- Model of `sinusoids(length, channels, max_timescale)` in float semantics:
`assert channels % 2 == 0` (fatal error modelled as `none`), then
`log_timescale_increment = np.log(max_timescale) / (channels // 2 - 1)`,
`inv_timescales[i] = exp(-log_timescale_increment * i)` for
`i < channels // 2`, `scaled_time[t][i] = t * inv_timescales[i]`, and the
output is `cat([sin(scaled_time), cos(scaled_time)], dim=1)`. -/
def sinusoids (length channels : ℕ) (max_timescale : ℝ) :
    Option (ℕ → ℕ → FVal) :=
  if channels % 2 = 0 then
    let half := channels / 2
    let log_timescale_increment :=
      FVal.divInt (FVal.fin (Real.log max_timescale)) (((channels / 2 : ℕ) : ℤ) - 1)
    let inv_timescales := fun i : ℕ => FVal.exp (FVal.scaleInt (i : ℤ) log_timescale_increment.neg)
    let scaled_time := fun (t i : ℕ) => FVal.scaleInt (t : ℤ) (inv_timescales i)
    some (fun t c => if c < half then (scaled_time t c).sin else (scaled_time t (c - half)).cos)
  else none

/-- Spec-side formula for `inv_timescales[i]`, written from the
specification's words: `exp(-i * (ln(max_timescale) / (channels/2 - 1)))`,
in the same float semantics. -/
def specInvTimescale (channels : ℕ) (max_timescale : ℝ) (i : ℕ) : FVal :=
  FVal.exp (FVal.scaleInt (i : ℤ)
    (FVal.neg (FVal.divInt (FVal.fin (Real.log max_timescale)) (((channels / 2 : ℕ) : ℤ) - 1))))

/-- Spec-side formula for the scaled-time matrix entry
`position * inv_timescales[i]`. -/
def specScaledTime (channels : ℕ) (max_timescale : ℝ) (t i : ℕ) : FVal :=
  FVal.scaleInt (t : ℤ) (specInvTimescale channels max_timescale i)

lemma Cache.find_insert_self (c : Cache) (id : ModuleId) (t : TSeq) :
    Cache.find (Cache.insert c id t) id = some t := by
  induction c with
  | nil => simp [Cache.insert, Cache.find]
  | cons p c ih =>
    obtain ⟨i, u⟩ := p
    by_cases h : i = id <;> simp [Cache.insert, Cache.find, h, ih]

lemma Cache.find_insert_ne (c : Cache) (id id' : ModuleId) (t : TSeq) (h : id' ≠ id) :
    Cache.find (Cache.insert c id t) id' = Cache.find c id' := by
  have h' : ¬ id = id' := fun e => h e.symm
  induction c with
  | nil => simp [Cache.insert, Cache.find, h']
  | cons p c ih =>
    obtain ⟨i, u⟩ := p
    by_cases hi : i = id
    · subst hi
      simp [Cache.insert, Cache.find, h']
    · by_cases hii : i = id' <;> simp [Cache.insert, Cache.find, hi, hii, ih, h]

/-- With no mask and no cache (the audio-encoder configuration) every
residual block, hence the whole stack, runs without a fault. -/
lemma runBlocks_total (d H nctx : ℕ) (bs : List ResidualAttentionBlock) :
    ∀ (l : ℕ) (x : TSeq), ∃ y, runBlocks d H nctx l bs x none none none = some (y, none) := by
  induction bs with
  | nil => exact fun l x => ⟨x, rfl⟩
  | cons b bs ih =>
    intro l x
    have hb : ∃ x', ResidualAttentionBlock.forward d H nctx l b x none none none =
        some (x', none) := by
      cases hc : b.cross_attn with
      | none =>
        simp only [ResidualAttentionBlock.forward, MultiHeadAttention.forward,
          MultiHeadAttention.kvPair, MultiHeadAttention.freshKV, qkv_attention, hc,
          Option.getD]
        exact ⟨_, rfl⟩
      | some p =>
        obtain ⟨cm, cln⟩ := p
        simp only [ResidualAttentionBlock.forward, MultiHeadAttention.forward,
          MultiHeadAttention.kvPair, MultiHeadAttention.freshKV, qkv_attention, hc,
          Option.getD]
        exact ⟨_, rfl⟩
    obtain ⟨x', hx⟩ := hb
    obtain ⟨y, hy⟩ := ih (l + 1) x'
    refine ⟨y, ?_⟩
    simp only [runBlocks, hx]
    exact hy

/-- Claim C8: `is_multilingual` holds iff `n_vocab ≥ 51865`, and
`num_languages` equals `n_vocab - 51765 - 1` when multilingual and
`n_vocab - 51765` otherwise (exact integer arithmetic, fixed constants). -/
theorem claim_C8 (w : Whisper) :
    (w.is_multilingual = true ↔ 51865 ≤ w.dims.n_vocab) ∧
    w.num_languages = w.dims.n_vocab - 51765 -
      (if 51865 ≤ w.dims.n_vocab then 1 else 0) := by
  constructor
  · simp [Whisper.is_multilingual]
  · simp [Whisper.num_languages, Whisper.is_multilingual]

/-- Claim C5: `sinusoids` is a pure function of its arguments (so two calls
with identical arguments agree definitionally); odd `channels` is a fatal
error; for even `channels` the returned table has
`sin(position * inv_timescales[i])` in column `i < channels/2` and
`cos(position * inv_timescales[i])` in column `channels/2 + i`, with
`inv_timescales` exactly the spec's formula
`exp(-i * ln(max_timescale) / (channels/2 - 1))` (both sides evaluated in
the same float semantics). -/
theorem claim_C5 (length channels : ℕ) (max_timescale : ℝ) :
    (sinusoids length channels max_timescale = sinusoids length channels max_timescale) ∧
    (channels % 2 ≠ 0 → sinusoids length channels max_timescale = none) ∧
    (channels % 2 = 0 →
      ∃ T, sinusoids length channels max_timescale = some T ∧
        ∀ t i, i < channels / 2 →
          T t i = (specScaledTime channels max_timescale t i).sin ∧
          T t (channels / 2 + i) = (specScaledTime channels max_timescale t i).cos) := by
  refine ⟨rfl, fun h => by simp [sinusoids, h], fun h => ?_⟩
  have hs : sinusoids length channels max_timescale = some (fun t c =>
      if c < channels / 2 then (specScaledTime channels max_timescale t c).sin
      else (specScaledTime channels max_timescale t (c - channels / 2)).cos) := by
    rw [sinusoids, if_pos h]
    rfl
  refine ⟨_, hs, ?_⟩
  intro t i hi
  constructor
  · simp [hi]
  · have hni : ¬ channels / 2 + i < channels / 2 := by omega
    simp [hni, Nat.add_sub_cancel_left]

/-- Claim C10: with the default `max_timescale = 10000`, `channels = 2`
passes the even-channels assert but divides `ln(10000)` by `channels//2 - 1
= 0`; the table returned is entirely NaN (no fatal error is raised), whereas
every even `channels ≥ 4` yields a table of finite (well-defined) entries. -/
theorem claim_C10 (length : ℕ) :
    (∃ T, sinusoids length 2 10000 = some T ∧ ∀ t, ∀ c < 2, T t c = FVal.nan) ∧
    (∀ channels : ℕ, channels % 2 = 0 → 4 ≤ channels →
      ∃ T, sinusoids length channels 10000 = some T ∧ ∀ t c, (T t c).isFin) := by
  have hlog : (0 : ℝ) < Real.log 10000 := Real.log_pos (by norm_num)
  constructor
  · refine ⟨_, rfl, ?_⟩
    intro t c hc
    interval_cases c
    · show (if (0 : ℕ) < 2 / 2 then _ else _) = _
      rw [if_pos (by norm_num)]
      simp [FVal.divInt, hlog, FVal.neg, FVal.scaleInt, FVal.exp, FVal.sin]
    · show (if (1 : ℕ) < 2 / 2 then _ else _) = _
      rw [if_neg (by norm_num)]
      simp [FVal.divInt, hlog, FVal.neg, FVal.scaleInt, FVal.exp, FVal.cos]
  · intro channels hpar hge
    have hs : sinusoids length channels 10000 = some (fun t c =>
        if c < channels / 2 then (specScaledTime channels 10000 t c).sin
        else (specScaledTime channels 10000 t (c - channels / 2)).cos) := by
      rw [sinusoids, if_pos hpar]
      rfl
    refine ⟨_, hs, ?_⟩
    intro t c
    have hne : ¬ (((channels / 2 : ℕ) : ℤ) - 1 = 0) := by omega
    have hne2 : ¬ ((channels : ℤ) / 2 - 1 = 0) := by omega
    by_cases hc : c < channels / 2 <;>
      simp [hc, specScaledTime, specInvTimescale, FVal.divInt, hne, hne2, FVal.neg,
        FVal.scaleInt, FVal.exp, FVal.sin, FVal.cos, FVal.isFin]

/-- Claim C6: the installed hook stores the new output as-is when the
projection's identity is absent or the output's sequence length exceeds
`n_text_ctx`, otherwise stores the concatenation of the cached tensor and
the output along the sequence axis; in both cases the stored tensor is what
the hook returns in place of the projection output (`.detach()` is the
identity on values in this model), and entries of other modules are
untouched. -/
theorem claim_C6 (nctx : ℕ) (c : Cache) (id : ModuleId) (out : TSeq) :
    ((Cache.find c id = none ∨ out.len > nctx) →
      save_to_cache nctx c id out = (out, Cache.insert c id out)) ∧
    (∀ prev, Cache.find c id = some prev → out.len ≤ nctx →
      save_to_cache nctx c id out =
        (prev.append out, Cache.insert c id (prev.append out))) ∧
    Cache.find (save_to_cache nctx c id out).2 id = some (save_to_cache nctx c id out).1 ∧
    (∀ id', id' ≠ id →
      Cache.find (save_to_cache nctx c id out).2 id' = Cache.find c id') := by
  refine ⟨?_, ?_, ?_, ?_⟩
  · rintro (h | h)
    · simp [save_to_cache, h]
    · cases hf : Cache.find c id with
      | none => simp [save_to_cache, hf]
      | some prev => simp [save_to_cache, hf, h]
  · intro prev hf hle
    simp [save_to_cache, hf, Nat.not_lt.2 hle]
  · cases hf : Cache.find c id with
    | none => simp [save_to_cache, hf, Cache.find_insert_self]
    | some prev =>
      by_cases h : out.len > nctx <;>
        simp [save_to_cache, hf, h, Cache.find_insert_self]
  · intro id' hne
    cases hf : Cache.find c id with
    | none => simp [save_to_cache, hf, Cache.find_insert_ne _ _ _ _ hne]
    | some prev =>
      by_cases h : out.len > nctx <;>
        simp [save_to_cache, hf, h, Cache.find_insert_ne _ _ _ _ hne]

/-- Claim C2: `MultiHeadAttention.forward` reuses the cached key/value
tensors verbatim (no key/value projection runs, cache untouched) exactly
when a cache is supplied, the layer's key-projection identity is present in
it, and `xa` is provided; in every other case the key and value projections
are computed fresh from `x` (self-attention) or `xa` (cross-attention) — as
the raw projections when no cache is installed, and through the cache hook
when one is.  The query projection is computed from `x` in all cases. -/
theorem claim_C2 (m : MultiHeadAttention) (d H nctx : ℕ) (idK idV : ModuleId) (x : TSeq) :
    (∀ c a ck cv, Cache.find c idK = some ck → Cache.find c idV = some cv →
      m.kvPair d nctx idK idV x (some a) (some c) = some (ck, cv, some c)) ∧
    (∀ xa : Option TSeq, m.kvPair d nctx idK idV x xa none =
      some ((xa.getD x).map (Linear.forward d m.key),
            (xa.getD x).map (Linear.forward d m.value), none)) ∧
    (∀ c, m.kvPair d nctx idK idV x none (some c) =
      some (m.freshKV d nctx idK idV x (some c))) ∧
    (∀ c a, Cache.find c idK = none →
      m.kvPair d nctx idK idV x (some a) (some c) =
        some (m.freshKV d nctx idK idV a (some c))) ∧
    (∀ src c, m.freshKV d nctx idK idV src (some c) =
      ((save_to_cache nctx c idK (src.map (Linear.forward d m.key))).1,
       (save_to_cache nctx (save_to_cache nctx c idK (src.map (Linear.forward d m.key))).2
          idV (src.map (Linear.forward d m.value))).1,
       some (save_to_cache nctx (save_to_cache nctx c idK (src.map (Linear.forward d m.key))).2
          idV (src.map (Linear.forward d m.value))).2)) ∧
    (∀ (xa : Option TSeq) (mask : Option (ℕ → ℕ → MVal)) (kv : Option Cache) k v kv1,
      m.kvPair d nctx idK idV x xa kv = some (k, v, kv1) →
      m.forward d H nctx idK idV x xa mask kv =
        (qkv_attention d H (m.queryOf d x) k v mask).map
          (fun p => (p.1.map (Linear.forward d m.out), p.2, kv1))) := by
  refine ⟨?_, fun xa => rfl, fun c => rfl, ?_, fun src c => rfl, ?_⟩
  · intro c a ck cv hk hv
    simp [MultiHeadAttention.kvPair, hk, hv]
  · intro c a hk
    simp [MultiHeadAttention.kvPair, hk]
  · intro xa mask kv k v kv1 h
    simp only [MultiHeadAttention.forward, h]
    cases hq : qkv_attention d H (m.queryOf d x) k v mask with
    | none => simp [hq]
    | some p => simp [hq]

/-- Concrete one-position sequence for witnesses. -/
def seqW1 : TSeq := ⟨1, fun _ _ => 0⟩

/-- Concrete two-position sequence for witnesses. -/
def seqW2 : TSeq := ⟨2, fun _ _ => 0⟩

/-- Concrete layer norm for witnesses. -/
def lnW : LayerNorm := ⟨fun _ => 1, fun _ => 0, 1e-5⟩

/-- Concrete attention weights for witnesses. -/
def mhaW : MultiHeadAttention :=
  ⟨⟨fun _ _ => 0, some fun _ => 0⟩, ⟨fun _ _ => 0, none⟩,
   ⟨fun _ _ => 0, some fun _ => 0⟩, ⟨fun _ _ => 0, some fun _ => 0⟩⟩

/-- Concrete module identities for witnesses. -/
def idKW : ModuleId := ⟨0, false, Proj.key⟩

/-- Concrete value-projection identity for witnesses. -/
def idVW : ModuleId := ⟨0, false, Proj.value⟩

/-- Witness for claim C2: the cache-reuse branch at a concrete input. -/
theorem claim_C2_witness :
    mhaW.kvPair 1 4 idKW idVW seqW1 (some seqW2) (some [(idKW, seqW1), (idVW, seqW1)]) =
      some (seqW1, seqW1, some [(idKW, seqW1), (idVW, seqW1)]) :=
  (claim_C2 mhaW 1 1 4 idKW idVW seqW1).1 [(idKW, seqW1), (idVW, seqW1)] seqW2 seqW1 seqW1
    (by simp [Cache.find]) (by simp [Cache.find, idKW, idVW])

/-- Claim C4: the decoder's causal mask has negative infinity strictly above
the diagonal and 0 on and below it; in the square (full-pass) self-attention
configuration the masked score matrix is score + mask, and the post-softmax
attention weight from any query position `t` to any key position `s > t` is
exactly 0, while the softmax denominator of an in-range row is strictly
positive (so the zero is a genuine weight, not a 0/0 artefact). -/
theorem claim_C4 :
    (∀ i j : ℕ, causalMask i j = if i < j then none else some (0 : ℝ)) ∧
    (∀ (d H : ℕ) (q k v : TSeq), k.len = q.len →
      qkv_attention d H q k v (some causalMask) =
        some (attnOut d H v (fun h t s => mvAdd (some (qkRaw d H q k h t s)) (causalMask t s))
                q.len k.len,
              fun h t s => mvAdd (some (qkRaw d H q k h t s)) (causalMask t s))) ∧
    (∀ (d H : ℕ) (q k : TSeq) (h t s nk : ℕ), t < s →
      attnW (fun t1 s1 => mvAdd (some (qkRaw d H q k h t1 s1)) (causalMask t1 s1)) nk t s = 0) ∧
    (∀ (d H : ℕ) (q k : TSeq) (h t nk : ℕ), t < nk →
      0 < ∑ j ∈ Finset.range nk, mexp (mvAdd (some (qkRaw d H q k h t j)) (causalMask t j))) := by
  refine ⟨?_, ?_, ?_, ?_⟩
  · intro i j
    by_cases h : i < j
    · have hz : ((j : ℤ) - (i : ℤ) ≥ 1) := by omega
      simp [causalMask, triuKeep, hz, h]
    · have hz : ¬ ((j : ℤ) - (i : ℤ) ≥ 1) := by omega
      simp [causalMask, triuKeep, hz, h]
  · intro d H q k v hlen
    simp [qkv_attention, applyMask, hlen]
  · intro d H q k h t s nk hts
    have hz : ((s : ℤ) - (t : ℤ) ≥ 1) := by omega
    have hmask : causalMask t s = none := by simp [causalMask, triuKeep, hz]
    simp [attnW, hmask, mvAdd, mexp]
  · intro d H q k h t nk ht
    refine Finset.sum_pos' (fun j _ => ?_) ⟨t, Finset.mem_range.2 ht, ?_⟩
    · cases hm : mvAdd (some (qkRaw d H q k h t j)) (causalMask t j) with
      | none => simp [mexp]
      | some a => simpa [mexp] using (Real.exp_pos a).le
    · have hz : ¬ ((t : ℤ) - (t : ℤ) ≥ 1) := by omega
      have hmask : causalMask t t = some 0 := by simp [causalMask, triuKeep, hz]
      rw [hmask]
      simpa [mvAdd, mexp] using Real.exp_pos _

/-- Witness for claim C4: the three masked-attention parts at concrete
inputs. -/
theorem claim_C4_witness :
    (qkv_attention 1 1 seqW2 seqW2 seqW2 (some causalMask) =
      some (attnOut 1 1 seqW2
              (fun h t s => mvAdd (some (qkRaw 1 1 seqW2 seqW2 h t s)) (causalMask t s))
              seqW2.len seqW2.len,
            fun h t s => mvAdd (some (qkRaw 1 1 seqW2 seqW2 h t s)) (causalMask t s))) ∧
    attnW (fun t1 s1 => mvAdd (some (qkRaw 1 1 seqW2 seqW2 0 t1 s1)) (causalMask t1 s1)) 2 0 1 = 0 ∧
    0 < ∑ j ∈ Finset.range 2, mexp (mvAdd (some (qkRaw 1 1 seqW2 seqW2 0 0 j)) (causalMask 0 j)) :=
  ⟨claim_C4.2.1 1 1 seqW2 seqW2 seqW2 rfl,
   claim_C4.2.2.1 1 1 seqW2 seqW2 0 0 1 2 (by decide),
   claim_C4.2.2.2 1 1 seqW2 seqW2 0 0 2 (by decide)⟩

/-- Claim C9: `AudioEncoder.forward` raises the fatal shape-mismatch error —
before the positional embedding is added and before any residual block runs —
exactly when the post-convolution time length disagrees with the positional
table's `n_ctx` (the channel component, `n_state`, always matches by
construction); with a matching shape no error is raised.  The hypothesis
`1 ≤ L` restricts to inputs long enough for the convolution kernels, where
the shape model is exact. -/
theorem claim_C9 (E : AudioEncoder) (L : ℕ) (x : ℕ → ℕ → ℝ) (hL : 1 ≤ L) :
    (convOutLen (convOutLen L 3 1 1) 3 2 1 ≠ E.n_ctx →
      E.forward L x = Except.error "incorrect audio shape") ∧
    (convOutLen (convOutLen L 3 1 1) 3 2 1 = E.n_ctx →
      ∃ y, E.forward L x = Except.ok y) := by
  constructor
  · intro hne
    have hcond : ¬ ((convOutLen (convOutLen L 3 1 1) 3 2 1, E.n_state) =
        (E.n_ctx, E.n_state)) := by
      simp [Prod.ext_iff, hne]
    simp [AudioEncoder.forward, hcond]
  · intro heq
    have hcond : ((convOutLen (convOutLen L 3 1 1) 3 2 1, E.n_state) =
        (E.n_ctx, E.n_state)) := by rw [heq]
    obtain ⟨y, hy⟩ := runBlocks_total E.n_state E.n_head 0 E.blocks 0 (E.preBlocks L x)
    exact ⟨y.map (LayerNorm.forward E.n_state E.ln_post),
      by simp [AudioEncoder.forward, hcond, hy]⟩

/-- Concrete audio encoder for witnesses: `n_ctx = 2`, no residual blocks. -/
def encW : AudioEncoder :=
  ⟨1, 2, 1, 1, ⟨fun _ _ _ => 0, fun _ => 0⟩, ⟨fun _ _ _ => 0, fun _ => 0⟩, [], lnW,
   fun _ _ => 0⟩

/-- Witness for claim C9: a mismatching input of length 6 errors, a matching
input of length 4 succeeds, on a concrete encoder with `n_ctx = 2`. -/
theorem claim_C9_witness :
    encW.forward 6 (fun _ _ => 0) = Except.error "incorrect audio shape" ∧
    ∃ y, encW.forward 4 (fun _ _ => 0) = Except.ok y :=
  ⟨(claim_C9 encW 6 (fun _ _ => 0) (by decide)).1 (by decide),
   (claim_C9 encW 4 (fun _ _ => 0) (by decide)).2 (by decide)⟩

/-- Claim C7: `TextDecoder.forward` returns logits equal to the final
layer-normalised hidden states multiplied by the transpose of the
token-embedding weight matrix — weight tying, with no separate
output-projection parameter anywhere in `TextDecoder` — and the `.float()`
cast makes the returned logits at least single precision whatever the
compute dtype. -/
theorem claim_C7 (D : TextDecoder) (tokens : List ℕ) (xa : TSeq) (kv : Option Cache)
    (y : TSeq) (kv2 : Option Cache)
    (h : runBlocks D.n_state D.n_head D.n_ctx 0 D.blocks (D.embSeq tokens (offsetOf kv))
        (some xa) (some causalMask) kv = some (y, kv2)) :
    D.forward tokens xa kv = some (D.logits y, kv2) ∧
    (∀ t v, (D.logits y).val t v =
      ∑ i ∈ Finset.range D.n_state,
        LayerNorm.forward D.n_state D.ln (y.val t) i * D.token_embedding v i) ∧
    (∀ dt : DType, torchFloat dt = DType.single ∧ 32 ≤ (torchFloat dt).bits) := by
  refine ⟨?_, fun t v => rfl, fun dt => ⟨rfl, by simp [torchFloat, DType.bits]⟩⟩
  simp [TextDecoder.forward, h]

/-- Concrete decoder with no blocks for witnesses. -/
def decW : TextDecoder := ⟨1, 4, 1, 1, fun _ _ => 0, fun _ _ => 0, [], lnW⟩

/-- Witness for claim C7 at a concrete decoder (empty block stack, so the
block-run hypothesis is `rfl`). -/
theorem claim_C7_witness :
    decW.forward [0] seqW2 none = some (decW.logits (decW.embSeq [0] (offsetOf none)), none) :=
  (claim_C7 decW [0] seqW2 none (decW.embSeq [0] (offsetOf none)) none rfl).1

lemma Cache.find_append_of_none (pre c : Cache) (id : ModuleId)
    (h : Cache.find pre id = none) :
    Cache.find (pre ++ c) id = Cache.find c id := by
  induction pre with
  | nil => rfl
  | cons p pre ih =>
    obtain ⟨i, u⟩ := p
    by_cases hi : i = id
    · simp [Cache.find, hi] at h
    · simp only [Cache.find, if_neg hi] at h
      simp only [List.cons_append, Cache.find, if_neg hi]
      exact ih h

lemma Cache.insert_append_of_none (pre c : Cache) (id : ModuleId) (t : TSeq)
    (h : Cache.find pre id = none) :
    Cache.insert (pre ++ c) id t = pre ++ Cache.insert c id t := by
  induction pre with
  | nil => rfl
  | cons p pre ih =>
    obtain ⟨i, u⟩ := p
    by_cases hi : i = id
    · simp [Cache.find, hi] at h
    · simp only [Cache.find, if_neg hi] at h
      simp only [List.cons_append, Cache.insert, if_neg hi]
      exact congrArg (List.cons (i, u)) (ih h)

lemma Cache.insert_eq_append (c : Cache) (id : ModuleId) (t : TSeq)
    (h : Cache.find c id = none) :
    Cache.insert c id t = c ++ [(id, t)] := by
  induction c with
  | nil => rfl
  | cons p c ih =>
    obtain ⟨i, u⟩ := p
    by_cases hi : i = id
    · simp [Cache.find, hi] at h
    · simp only [Cache.find, if_neg hi] at h
      simp only [Cache.insert, if_neg hi, List.cons_append]
      exact congrArg (List.cons (i, u)) (ih h)

lemma Cache.find_none_of_layer_lt (pre : Cache) (l : ℕ) (id : ModuleId)
    (hpre : ∀ p ∈ pre, p.1.layer < l) (hid : l ≤ id.layer) :
    Cache.find pre id = none := by
  induction pre with
  | nil => rfl
  | cons p pre ih =>
    obtain ⟨i, u⟩ := p
    have hi : ¬ i = id := by
      intro e
      have hl : i.layer < l := hpre (i, u) (List.mem_cons_self _ _)
      rw [e] at hl
      omega
    simp only [Cache.find, if_neg hi]
    exact ih (fun p hp => hpre p (List.mem_cons_of_mem _ hp))

/-- A hook firing on a module that is absent from the cache stores the output
as-is, appending the entry at the end of the (insertion-ordered) dict. -/
lemma save_to_cache_absent (nc : ℕ) (c : Cache) (id : ModuleId) (out : TSeq)
    (h : Cache.find c id = none) :
    save_to_cache nc c id out = (out, c ++ [(id, out)]) := by
  simp [save_to_cache, h, Cache.insert_eq_append c id out h]

/-- A hook firing on a module whose entry sits at the head of the cache
suffix concatenates in place (when the output is short enough). -/
lemma save_to_cache_head (nc : ℕ) (pre tail : Cache) (id : ModuleId) (eK out : TSeq)
    (hpre : Cache.find pre id = none) (hlen : ¬ out.len > nc) :
    save_to_cache nc (pre ++ (id, eK) :: tail) id out =
      (eK.append out, pre ++ (id, eK.append out) :: tail) := by
  have hfind : Cache.find (pre ++ (id, eK) :: tail) id = some eK := by
    rw [Cache.find_append_of_none _ _ _ hpre]
    simp [Cache.find]
  have hins : Cache.insert (pre ++ (id, eK) :: tail) id (eK.append out) =
      pre ++ (id, eK.append out) :: tail := by
    rw [Cache.insert_append_of_none _ _ _ _ hpre]
    simp [Cache.insert]
  simp [save_to_cache, hfind, hlen, hins]

lemma causalMask_le (i s : ℕ) (h : s ≤ i) : causalMask i s = some (0 : ℝ) := by
  have hz : ¬ ((s : ℤ) - (i : ℤ) ≥ 1) := by omega
  simp [causalMask, triuKeep, hz]

lemma causalMask_gt (i s : ℕ) (h : i < s) : causalMask i s = none := by
  have hz : ((s : ℤ) - (i : ℤ) ≥ 1) := by omega
  simp [causalMask, triuKeep, hz]

/-- Core equivalence of one incremental self-attention step with the
corresponding row of the full-pass causal self-attention: the single query
row `q1` equals row `i` of the full query; the accumulated keys/values agree
with the full ones on positions `≤ i`; every mask value the incremental step
sees is 0 (the broadcast `(1,1)` slice, or the 1×1 exact slice when `i = 0`);
and row `i` of the full pass attends, through the causal mask, to exactly
the same `i + 1` positions with the same weights. -/
lemma attnOut_step (d H : ℕ) (q1 K1 V1 Q K V : TSeq) (i : ℕ) (ms : ℕ → ℕ → MVal)
    (hq : q1.val 0 = Q.val i)
    (hKlen : K1.len = i + 1)
    (hms : ∀ s < i + 1, ms 0 s = some (0 : ℝ))
    (hK : ∀ t < i + 1, K1.val t = K.val t)
    (hV : ∀ t < i + 1, V1.val t = V.val t)
    (hi : i < K.len) :
    ∀ ch, (attnOut d H V1 (fun h t s => mvAdd (some (qkRaw d H q1 K1 h t s)) (ms t s))
             q1.len K1.len).val 0 ch
        = (attnOut d H V (fun h t s => mvAdd (some (qkRaw d H Q K h t s)) (causalMask t s))
             Q.len K.len).val i ch := by
  intro ch
  have hraw : ∀ s < i + 1,
      qkRaw d H q1 K1 (ch / headDim d H) 0 s = qkRaw d H Q K (ch / headDim d H) i s := by
    intro s hs
    unfold qkRaw qHead kHead
    refine Finset.sum_congr rfl (fun u _ => ?_)
    rw [hq, hK s hs]
  have hsub : Finset.range (i + 1) ⊆ Finset.range K.len := Finset.range_subset.2 hi
  have hDL : ∑ s ∈ Finset.range (i + 1),
        mexp (mvAdd (some (qkRaw d H q1 K1 (ch / headDim d H) 0 s)) (ms 0 s))
      = ∑ s ∈ Finset.range (i + 1), Real.exp (qkRaw d H Q K (ch / headDim d H) i s) := by
    refine Finset.sum_congr rfl (fun s hs => ?_)
    have hs' := Finset.mem_range.1 hs
    rw [hms s hs', hraw s hs']
    simp [mvAdd, mexp]
  have hDR : ∑ s ∈ Finset.range K.len,
        mexp (mvAdd (some (qkRaw d H Q K (ch / headDim d H) i s)) (causalMask i s))
      = ∑ s ∈ Finset.range (i + 1), Real.exp (qkRaw d H Q K (ch / headDim d H) i s) := by
    rw [← Finset.sum_subset hsub]
    · refine Finset.sum_congr rfl (fun s hs => ?_)
      have hs' := Finset.mem_range.1 hs
      rw [causalMask_le i s (by omega)]
      simp [mvAdd, mexp]
    · intro s _ hsnot
      have hgt : i < s := by
        rcases Nat.lt_or_ge s (i + 1) with hlt | hge
        · exact absurd (Finset.mem_range.2 hlt) hsnot
        · omega
      rw [causalMask_gt i s hgt]
      simp [mvAdd, mexp]
  show (∑ s ∈ Finset.range K1.len,
      attnW (fun t s => mvAdd (some (qkRaw d H q1 K1 (ch / headDim d H) t s)) (ms t s))
        K1.len 0 s * vHead d H V1 (ch / headDim d H) s (ch % headDim d H))
    = ∑ s ∈ Finset.range K.len,
      attnW (fun t s => mvAdd (some (qkRaw d H Q K (ch / headDim d H) t s)) (causalMask t s))
        K.len i s * vHead d H V (ch / headDim d H) s (ch % headDim d H)
  rw [hKlen]
  rw [← Finset.sum_subset hsub]
  · refine Finset.sum_congr rfl (fun s hs => ?_)
    have hs' := Finset.mem_range.1 hs
    simp only [attnW]
    rw [hDL, hDR, hms s hs', hraw s hs', causalMask_le i s (by omega)]
    unfold vHead
    rw [hV s hs']
  · intro s _ hsnot
    have hgt : i < s := by
      rcases Nat.lt_or_ge s (i + 1) with hlt | hge
      · exact absurd (Finset.mem_range.2 hlt) hsnot
      · omega
    simp only [attnW]
    rw [causalMask_gt i s hgt]
    simp [mvAdd, mexp]

/-- Core equivalence of one incremental cross-attention step with the
corresponding row of the full-pass cross-attention: same keys and values
(computed once from the audio features), and the single query row equals row
`i` of the full query, so the output rows coincide (no mask involved). -/
lemma attnOut_row (d H : ℕ) (q1 Q K V : TSeq) (t0 u0 : ℕ) (hq : q1.val t0 = Q.val u0) :
    ∀ ch, (attnOut d H V (fun h t s => (some (qkRaw d H q1 K h t s) : MVal)) q1.len K.len).val t0 ch
        = (attnOut d H V (fun h t s => (some (qkRaw d H Q K h t s) : MVal)) Q.len K.len).val u0 ch := by
  intro ch
  have hraw : ∀ s, qkRaw d H q1 K (ch / headDim d H) t0 s = qkRaw d H Q K (ch / headDim d H) u0 s := by
    intro s
    unfold qkRaw qHead kHead
    refine Finset.sum_congr rfl (fun u _ => ?_)
    rw [hq]
  show (∑ s ∈ Finset.range K.len,
      attnW (fun t s => (some (qkRaw d H q1 K (ch / headDim d H) t s) : MVal)) K.len t0 s *
        vHead d H V (ch / headDim d H) s (ch % headDim d H))
    = ∑ s ∈ Finset.range K.len,
      attnW (fun t s => (some (qkRaw d H Q K (ch / headDim d H) t s) : MVal)) K.len u0 s *
        vHead d H V (ch / headDim d H) s (ch % headDim d H)
  refine Finset.sum_congr rfl (fun s _ => ?_)
  simp only [attnW, hraw, mexp]

lemma blockPure_len (d H : ℕ) (mask : Option (ℕ → ℕ → MVal)) (b : ResidualAttentionBlock)
    (xa : Option TSeq) (x : TSeq) : (blockPure d H mask b xa x).len = x.len := by
  unfold blockPure mlpStep
  cases b.cross_attn with
  | none => simp
  | some p => simp

lemma runPure_len (d H : ℕ) (mask : Option (ℕ → ℕ → MVal))
    (bs : List ResidualAttentionBlock) :
    ∀ (xa : Option TSeq) (x : TSeq), (runPure d H mask bs xa x).len = x.len := by
  induction bs with
  | nil => intro xa x; rfl
  | cons b bs ih =>
    intro xa x
    show (runPure d H mask bs xa (blockPure d H mask b xa x)).len = x.len
    rw [ih, blockPure_len]

/-- A cache-less run of the block stack agrees with the pure fold: this is
the full-sequence decoder pass (causal mask, `nk = nq`), and also the
encoder pass (no mask). -/
lemma runBlocks_none (d H nc : ℕ) (mask : Option (ℕ → ℕ → MVal)) (xaOpt : Option TSeq)
    (bs : List ResidualAttentionBlock) :
    ∀ (l : ℕ) (x : TSeq),
      runBlocks d H nc l bs x xaOpt mask none =
        some (runPure d H mask bs xaOpt x, none) := by
  induction bs with
  | nil => intro l x; rfl
  | cons b bs ih =>
    intro l x
    have hb : ResidualAttentionBlock.forward d H nc l b x xaOpt mask none =
        some (blockPure d H mask b xaOpt x, none) := by
      cases hc : b.cross_attn with
      | none =>
        cases mask with
        | none =>
          simp [ResidualAttentionBlock.forward, MultiHeadAttention.forward,
            MultiHeadAttention.kvPair, MultiHeadAttention.freshKV, qkv_attention,
            blockPure, selfAttnPure, MultiHeadAttention.queryOf, hc]
        | some mm =>
          simp [ResidualAttentionBlock.forward, MultiHeadAttention.forward,
            MultiHeadAttention.kvPair, MultiHeadAttention.freshKV, qkv_attention,
            applyMask, blockPure, selfAttnPure, MultiHeadAttention.queryOf, hc]
      | some p =>
        obtain ⟨cm, cln⟩ := p
        cases mask with
        | none =>
          simp [ResidualAttentionBlock.forward, MultiHeadAttention.forward,
            MultiHeadAttention.kvPair, MultiHeadAttention.freshKV, qkv_attention,
            blockPure, selfAttnPure, crossAttnPure, MultiHeadAttention.queryOf, hc]
        | some mm =>
          simp [ResidualAttentionBlock.forward, MultiHeadAttention.forward,
            MultiHeadAttention.kvPair, MultiHeadAttention.freshKV, qkv_attention,
            applyMask, blockPure, selfAttnPure, crossAttnPure, MultiHeadAttention.queryOf, hc]
    simp only [runBlocks, hb]
    exact ih (l + 1) _

/-- The full-pass self-attention key projections of one block. -/
def selfKOf (d : ℕ) (b : ResidualAttentionBlock) (X : TSeq) : TSeq :=
  (X.map (LayerNorm.forward d b.attn_ln)).map (Linear.forward d b.attn.key)

/-- The full-pass self-attention value projections of one block. -/
def selfVOf (d : ℕ) (b : ResidualAttentionBlock) (X : TSeq) : TSeq :=
  (X.map (LayerNorm.forward d b.attn_ln)).map (Linear.forward d b.attn.value)

/-- The cross-attention cache entries of one block: keys/values computed once
from the fixed audio features (empty for a block without cross-attention). -/
def crossEntries (d l : ℕ) (b : ResidualAttentionBlock) (xa : TSeq) : Cache :=
  match b.cross_attn with
  | none => []
  | some (cm, _) =>
    [(⟨l, true, Proj.key⟩, xa.map (Linear.forward d cm.key)),
     (⟨l, true, Proj.value⟩, xa.map (Linear.forward d cm.value))]

/-- Invariant of the KV cache after `i` one-token decoder steps, for the
block suffix `bs` starting at layer `l` with full-pass input `X`: the cache
lists, in hook firing order, for each block its self-attention key/value
entries — of length `i`, agreeing down their length with the key/value
projections the full `N`-token pass computes — followed by its
cross-attention entries (exactly the audio projections).  After zero steps
the cache is empty. -/
def CacheRel (d H : ℕ) :
    List ResidualAttentionBlock → ℕ → ℕ → TSeq → TSeq → Cache → Prop
  | [], _, _, _, _, c => c = []
  | _ :: _, _, 0, _, _, c => c = []
  | b :: bs, l, i + 1, X, xa, c =>
    ∃ eK eV rest,
      c = (⟨l, false, Proj.key⟩, eK) :: (⟨l, false, Proj.value⟩, eV) ::
        (crossEntries d l b xa ++ rest) ∧
      eK.len = i + 1 ∧ eV.len = i + 1 ∧
      (∀ t < i + 1, eK.val t = (selfKOf d b X).val t) ∧
      (∀ t < i + 1, eV.val t = (selfVOf d b X).val t) ∧
      CacheRel d H bs (l + 1) (i + 1) (blockPure d H (some causalMask) b (some xa) X) xa rest

lemma CacheRel.layers_ge (d H : ℕ) (bs : List ResidualAttentionBlock) :
    ∀ (l i : ℕ) (X xa : TSeq) (c : Cache), CacheRel d H bs l i X xa c →
      ∀ p ∈ c, l ≤ p.1.layer := by
  induction bs with
  | nil =>
    intro l i X xa c h p hp
    rw [h] at hp
    simp at hp
  | cons b bs ih =>
    intro l i X xa c h p hp
    cases i with
    | zero =>
      rw [h] at hp
      simp at hp
    | succ i =>
      obtain ⟨eK, eV, rest, hc, _, _, _, _, hrest⟩ := h
      subst hc
      rcases List.mem_cons.1 hp with he | hp2
      · subst he; exact le_refl l
      rcases List.mem_cons.1 hp2 with he | hp3
      · subst he; exact le_refl l
      rcases List.mem_append.1 hp3 with hcr | hrr
      · cases hcc : b.cross_attn with
        | none => rw [crossEntries, hcc] at hcr; simp at hcr
        | some q =>
          obtain ⟨cm, cln⟩ := q
          rw [crossEntries, hcc] at hcr
          rcases List.mem_cons.1 hcr with he | hcr2
          · subst he; exact le_refl l
          rcases List.mem_cons.1 hcr2 with he | hcr3
          · subst he; exact le_refl l
          · simp at hcr3
      · exact le_of_lt (lt_of_lt_of_le (Nat.lt_succ_self l) (ih (l + 1) (i + 1) _ _ rest hrest p hrr))

lemma TSeq.add_row (x y X Y : TSeq) (t u : ℕ) (hx : x.val t = X.val u)
    (hy : y.val t = Y.val u) : (x.add y).val t = (X.add Y).val u := by
  funext ch
  simp [congrFun hx ch, congrFun hy ch]

lemma TSeq.map_row (f : (ℕ → ℝ) → (ℕ → ℝ)) (x X : TSeq) (t u : ℕ)
    (h : x.val t = X.val u) : (x.map f).val t = (X.map f).val u := by
  simp [h]

lemma mlpStep_row (d : ℕ) (b : ResidualAttentionBlock) (x X : TSeq) (t u : ℕ)
    (h : x.val t = X.val u) : (mlpStep d b x).val t = (mlpStep d b X).val u := by
  funext ch
  simp [mlpStep, h]

lemma crossAttnPure_row (m : MultiHeadAttention) (d H : ℕ) (x X xa : TSeq) (t u : ℕ)
    (h : x.val t = X.val u) :
    (crossAttnPure m d H x xa).val t = (crossAttnPure m d H X xa).val u := by
  have hq : (m.queryOf d x).val t = (m.queryOf d X).val u := by
    simp [MultiHeadAttention.queryOf, h]
  have hrow := attnOut_row d H (m.queryOf d x) (m.queryOf d X)
    (xa.map (Linear.forward d m.key)) (xa.map (Linear.forward d m.value)) t u hq
  show Linear.forward d m.out ((attnOut d H (xa.map (Linear.forward d m.value))
      (fun h1 t1 s1 => (some (qkRaw d H (m.queryOf d x) (xa.map (Linear.forward d m.key)) h1 t1 s1) : MVal))
      (m.queryOf d x).len (xa.map (Linear.forward d m.key)).len).val t)
    = Linear.forward d m.out ((attnOut d H (xa.map (Linear.forward d m.value))
      (fun h1 t1 s1 => (some (qkRaw d H (m.queryOf d X) (xa.map (Linear.forward d m.key)) h1 t1 s1) : MVal))
      (m.queryOf d X).len (xa.map (Linear.forward d m.key)).len).val u)
  exact congrArg (Linear.forward d m.out) (funext hrow)

/-- The first (and only) row of a one-token cache-less block pass equals row
0 of the block pass over any full sequence with the same row 0. -/
lemma blockPure_row_zero (d H : ℕ) (b : ResidualAttentionBlock) (xa x1 X : TSeq)
    (h1 : x1.len = 1) (h2 : x1.val 0 = X.val 0) (h3 : 0 < X.len) :
    (blockPure d H (some causalMask) b (some xa) x1).val 0 =
    (blockPure d H (some causalMask) b (some xa) X).val 0 := by
  have hxLn : (x1.map (LayerNorm.forward d b.attn_ln)).val 0 =
      (X.map (LayerNorm.forward d b.attn_ln)).val 0 := TSeq.map_row _ _ _ _ _ h2
  have hq : (b.attn.queryOf d (x1.map (LayerNorm.forward d b.attn_ln))).val 0 =
      (b.attn.queryOf d (X.map (LayerNorm.forward d b.attn_ln))).val 0 := by
    simp only [MultiHeadAttention.queryOf, TSeq.map_val]
    rw [h2]
  have hKlen : ((x1.map (LayerNorm.forward d b.attn_ln)).map (Linear.forward d b.attn.key)).len
      = 0 + 1 := by simp [h1]
  have hms : ∀ s < 0 + 1, causalMask 0 s = some (0 : ℝ) := by
    intro s hs
    have hs0 : s = 0 := by omega
    subst hs0
    exact causalMask_le 0 0 (le_refl 0)
  have hK : ∀ t < 0 + 1,
      ((x1.map (LayerNorm.forward d b.attn_ln)).map (Linear.forward d b.attn.key)).val t =
      ((X.map (LayerNorm.forward d b.attn_ln)).map (Linear.forward d b.attn.key)).val t := by
    intro t ht
    have ht0 : t = 0 := by omega
    subst ht0
    simp only [TSeq.map_val]
    rw [h2]
  have hV : ∀ t < 0 + 1,
      ((x1.map (LayerNorm.forward d b.attn_ln)).map (Linear.forward d b.attn.value)).val t =
      ((X.map (LayerNorm.forward d b.attn_ln)).map (Linear.forward d b.attn.value)).val t := by
    intro t ht
    have ht0 : t = 0 := by omega
    subst ht0
    simp only [TSeq.map_val]
    rw [h2]
  have hi : 0 < ((X.map (LayerNorm.forward d b.attn_ln)).map (Linear.forward d b.attn.key)).len := by
    simpa using h3
  have hrow := attnOut_step d H
    (b.attn.queryOf d (x1.map (LayerNorm.forward d b.attn_ln)))
    ((x1.map (LayerNorm.forward d b.attn_ln)).map (Linear.forward d b.attn.key))
    ((x1.map (LayerNorm.forward d b.attn_ln)).map (Linear.forward d b.attn.value))
    (b.attn.queryOf d (X.map (LayerNorm.forward d b.attn_ln)))
    ((X.map (LayerNorm.forward d b.attn_ln)).map (Linear.forward d b.attn.key))
    ((X.map (LayerNorm.forward d b.attn_ln)).map (Linear.forward d b.attn.value))
    0 causalMask hq hKlen hms hK hV hi
  have hself : (selfAttnPure b.attn d H (some causalMask)
        (x1.map (LayerNorm.forward d b.attn_ln))).val 0 =
      (selfAttnPure b.attn d H (some causalMask)
        (X.map (LayerNorm.forward d b.attn_ln))).val 0 :=
    congrArg (Linear.forward d b.attn.out) (funext hrow)
  have hx1p : (x1.add (selfAttnPure b.attn d H (some causalMask)
        (x1.map (LayerNorm.forward d b.attn_ln)))).val 0 =
      (X.add (selfAttnPure b.attn d H (some causalMask)
        (X.map (LayerNorm.forward d b.attn_ln)))).val 0 :=
    TSeq.add_row _ _ _ _ _ _ h2 hself
  cases hc : b.cross_attn with
  | none =>
    simp only [blockPure, hc]
    exact mlpStep_row d b _ _ 0 0 hx1p
  | some p =>
    obtain ⟨cm, cln⟩ := p
    have hxq : ((x1.add (selfAttnPure b.attn d H (some causalMask)
          (x1.map (LayerNorm.forward d b.attn_ln)))).map (LayerNorm.forward d cln)).val 0 =
        ((X.add (selfAttnPure b.attn d H (some causalMask)
          (X.map (LayerNorm.forward d b.attn_ln)))).map (LayerNorm.forward d cln)).val 0 :=
      TSeq.map_row _ _ _ _ _ hx1p
    have hcross := crossAttnPure_row cm d H _ _ xa 0 0 hxq
    have hx2 := TSeq.add_row _ _ _ _ 0 0 hx1p hcross
    simp only [blockPure, hc, Option.getD_some]
    exact mlpStep_row d b _ _ 0 0 hx2

/-- The value computed by one cached (incremental) block step after `i + 1`
previous steps: self-attention queries the single new position against the
concatenation of the cached keys/values and the new projection, under the
broadcast `(1,1)` mask slice; cross-attention reuses the cached audio
keys/values; then the MLP. -/
def blockStepSucc (d H : ℕ) (b : ResidualAttentionBlock) (xa x1 eK eV : TSeq) : TSeq :=
  let xLn := x1.map (LayerNorm.forward d b.attn_ln)
  let q := b.attn.queryOf d xLn
  let k := eK.append (xLn.map (Linear.forward d b.attn.key))
  let v := eV.append (xLn.map (Linear.forward d b.attn.value))
  let a := (attnOut d H v (fun h t s => mvAdd (some (qkRaw d H q k h t s)) (causalMask 0 0))
      q.len k.len).map (Linear.forward d b.attn.out)
  let x2 := x1.add a
  let x3 :=
    match b.cross_attn with
    | none => x2
    | some (cm, cln) =>
      let xq := x2.map (LayerNorm.forward d cln)
      x2.add (crossAttnPure cm d H xq xa)
  mlpStep d b x3

/-- The row computed by a cached block step at offset `i + 1` equals row
`i + 1` of the cache-less full pass of the same block, given the cache
invariant for this block's entries. -/
lemma blockStepSucc_row (d H : ℕ) (b : ResidualAttentionBlock) (xa x1 X eK eV : TSeq)
    (i : ℕ)
    (h1 : x1.len = 1) (h2 : x1.val 0 = X.val (i + 1)) (h3 : i + 1 < X.len)
    (heK : eK.len = i + 1) (heV : eV.len = i + 1)
    (hkagree : ∀ t < i + 1, eK.val t = (selfKOf d b X).val t)
    (hvagree : ∀ t < i + 1, eV.val t = (selfVOf d b X).val t) :
    (blockStepSucc d H b xa x1 eK eV).val 0 =
    (blockPure d H (some causalMask) b (some xa) X).val (i + 1) := by
  have hxLn : (x1.map (LayerNorm.forward d b.attn_ln)).val 0 =
      (X.map (LayerNorm.forward d b.attn_ln)).val (i + 1) := TSeq.map_row _ _ _ _ _ h2
  have hq : (b.attn.queryOf d (x1.map (LayerNorm.forward d b.attn_ln))).val 0 =
      (b.attn.queryOf d (X.map (LayerNorm.forward d b.attn_ln))).val (i + 1) := by
    simp only [MultiHeadAttention.queryOf, TSeq.map_val]
    rw [h2]
  have hKlen : (eK.append ((x1.map (LayerNorm.forward d b.attn_ln)).map
      (Linear.forward d b.attn.key))).len = (i + 1) + 1 := by simp [heK, h1]
  have hms : ∀ s < (i + 1) + 1, (fun _ _ => causalMask 0 0 : ℕ → ℕ → MVal) 0 s = some (0 : ℝ) := by
    intro s _
    exact causalMask_le 0 0 (le_refl 0)
  have hK : ∀ t < (i + 1) + 1,
      (eK.append ((x1.map (LayerNorm.forward d b.attn_ln)).map
        (Linear.forward d b.attn.key))).val t =
      ((X.map (LayerNorm.forward d b.attn_ln)).map (Linear.forward d b.attn.key)).val t := by
    intro t ht
    by_cases htl : t < eK.len
    · rw [TSeq.append_val_left _ _ _ htl]
      exact hkagree t (by omega)
    · rw [TSeq.append_val_right _ _ _ htl]
      have ht1 : t = i + 1 := by omega
      have ht2 : t - eK.len = 0 := by omega
      rw [ht2, ht1]
      show Linear.forward d b.attn.key (LayerNorm.forward d b.attn_ln (x1.val 0)) =
        ((X.map (LayerNorm.forward d b.attn_ln)).map (Linear.forward d b.attn.key)).val (i + 1)
      simp only [TSeq.map_val]
      rw [h2]
  have hV : ∀ t < (i + 1) + 1,
      (eV.append ((x1.map (LayerNorm.forward d b.attn_ln)).map
        (Linear.forward d b.attn.value))).val t =
      ((X.map (LayerNorm.forward d b.attn_ln)).map (Linear.forward d b.attn.value)).val t := by
    intro t ht
    by_cases htl : t < eV.len
    · rw [TSeq.append_val_left _ _ _ htl]
      exact hvagree t (by omega)
    · rw [TSeq.append_val_right _ _ _ htl]
      have ht1 : t = i + 1 := by omega
      have ht2 : t - eV.len = 0 := by omega
      rw [ht2, ht1]
      show Linear.forward d b.attn.value (LayerNorm.forward d b.attn_ln (x1.val 0)) =
        ((X.map (LayerNorm.forward d b.attn_ln)).map (Linear.forward d b.attn.value)).val (i + 1)
      simp only [TSeq.map_val]
      rw [h2]
  have hi : i + 1 < ((X.map (LayerNorm.forward d b.attn_ln)).map
      (Linear.forward d b.attn.key)).len := by simpa using h3
  have hrow := attnOut_step d H
    (b.attn.queryOf d (x1.map (LayerNorm.forward d b.attn_ln)))
    (eK.append ((x1.map (LayerNorm.forward d b.attn_ln)).map (Linear.forward d b.attn.key)))
    (eV.append ((x1.map (LayerNorm.forward d b.attn_ln)).map (Linear.forward d b.attn.value)))
    (b.attn.queryOf d (X.map (LayerNorm.forward d b.attn_ln)))
    ((X.map (LayerNorm.forward d b.attn_ln)).map (Linear.forward d b.attn.key))
    ((X.map (LayerNorm.forward d b.attn_ln)).map (Linear.forward d b.attn.value))
    (i + 1) (fun _ _ => causalMask 0 0) hq hKlen hms hK hV hi
  have hself : ((attnOut d H
        (eV.append ((x1.map (LayerNorm.forward d b.attn_ln)).map (Linear.forward d b.attn.value)))
        (fun h t s => mvAdd (some (qkRaw d H
          (b.attn.queryOf d (x1.map (LayerNorm.forward d b.attn_ln)))
          (eK.append ((x1.map (LayerNorm.forward d b.attn_ln)).map (Linear.forward d b.attn.key)))
          h t s)) (causalMask 0 0))
        (b.attn.queryOf d (x1.map (LayerNorm.forward d b.attn_ln))).len
        (eK.append ((x1.map (LayerNorm.forward d b.attn_ln)).map
          (Linear.forward d b.attn.key))).len).map (Linear.forward d b.attn.out)).val 0 =
      (selfAttnPure b.attn d H (some causalMask)
        (X.map (LayerNorm.forward d b.attn_ln))).val (i + 1) :=
    congrArg (Linear.forward d b.attn.out) (funext hrow)
  have hx2 : (x1.add ((attnOut d H
        (eV.append ((x1.map (LayerNorm.forward d b.attn_ln)).map (Linear.forward d b.attn.value)))
        (fun h t s => mvAdd (some (qkRaw d H
          (b.attn.queryOf d (x1.map (LayerNorm.forward d b.attn_ln)))
          (eK.append ((x1.map (LayerNorm.forward d b.attn_ln)).map (Linear.forward d b.attn.key)))
          h t s)) (causalMask 0 0))
        (b.attn.queryOf d (x1.map (LayerNorm.forward d b.attn_ln))).len
        (eK.append ((x1.map (LayerNorm.forward d b.attn_ln)).map
          (Linear.forward d b.attn.key))).len).map (Linear.forward d b.attn.out))).val 0 =
      (X.add (selfAttnPure b.attn d H (some causalMask)
        (X.map (LayerNorm.forward d b.attn_ln)))).val (i + 1) :=
    TSeq.add_row _ _ _ _ _ _ h2 hself
  cases hc : b.cross_attn with
  | none =>
    simp only [blockStepSucc, blockPure, hc]
    exact mlpStep_row d b _ _ 0 (i + 1) hx2
  | some p =>
    obtain ⟨cm, cln⟩ := p
    have hxq := TSeq.map_row (LayerNorm.forward d cln) _ _ 0 (i + 1) hx2
    have hcross := crossAttnPure_row cm d H _ _ xa 0 (i + 1) hxq
    have hx3 := TSeq.add_row _ _ _ _ 0 (i + 1) hx2 hcross
    simp only [blockStepSucc, blockPure, hc, Option.getD_some]
    exact mlpStep_row d b _ _ 0 (i + 1) hx3

lemma Cache.find_append_pair_ne (cc : Cache) (id1 id2 : ModuleId) (t : TSeq)
    (h : Cache.find cc id2 = none) (hne : ¬ id1 = id2) :
    Cache.find (cc ++ [(id1, t)]) id2 = none := by
  rw [Cache.find_append_of_none _ _ _ h]
  simp [Cache.find, hne]

/-- Mask-less `qkv_attention` never faults and returns the plain softmax
attention (definitionally). -/
lemma qkv_attention_none (d H : ℕ) (q k v : TSeq) :
    qkv_attention d H q k v none =
      some (attnOut d H v (fun h t s => (some (qkRaw d H q k h t s) : MVal)) q.len k.len,
        fun h t s => (some (qkRaw d H q k h t s) : MVal)) := rfl

lemma Cache.find_append_none (cc ce : Cache) (id : ModuleId)
    (h1 : Cache.find cc id = none) (h2 : Cache.find ce id = none) :
    Cache.find (cc ++ ce) id = none := by
  rw [Cache.find_append_of_none _ _ _ h1]
  exact h2

/-- One block of the first cached step (empty cache for this layer): the
hooks store the fresh self-attention projections (and, when present, the
cross-attention audio projections) by appending them to the dict, and the
computed value equals a cache-less pass on the single token. -/
lemma block_forward_zero (d H nc : ℕ) (b : ResidualAttentionBlock) (l : ℕ)
    (xa x1 : TSeq) (cc : Cache)
    (hfK : Cache.find cc ⟨l, false, Proj.key⟩ = none)
    (hfV : Cache.find cc ⟨l, false, Proj.value⟩ = none)
    (hfCK : Cache.find cc ⟨l, true, Proj.key⟩ = none)
    (hfCV : Cache.find cc ⟨l, true, Proj.value⟩ = none) :
    ResidualAttentionBlock.forward d H nc l b x1 (some xa) (some causalMask) (some cc) =
      some (blockPure d H (some causalMask) b (some xa) x1,
        some (cc ++ ((⟨l, false, Proj.key⟩,
            (x1.map (LayerNorm.forward d b.attn_ln)).map (Linear.forward d b.attn.key)) ::
          (⟨l, false, Proj.value⟩,
            (x1.map (LayerNorm.forward d b.attn_ln)).map (Linear.forward d b.attn.value)) ::
          crossEntries d l b xa))) := by
  have hsave1 := save_to_cache_absent nc cc ⟨l, false, Proj.key⟩
    ((x1.map (LayerNorm.forward d b.attn_ln)).map (Linear.forward d b.attn.key)) hfK
  have hfV2 : Cache.find (cc ++ [(⟨l, false, Proj.key⟩,
      (x1.map (LayerNorm.forward d b.attn_ln)).map (Linear.forward d b.attn.key))])
      ⟨l, false, Proj.value⟩ = none :=
    Cache.find_append_none cc _ _ hfV (by simp [Cache.find])
  have hsave2 := save_to_cache_absent nc
    (cc ++ [(⟨l, false, Proj.key⟩,
      (x1.map (LayerNorm.forward d b.attn_ln)).map (Linear.forward d b.attn.key))])
    ⟨l, false, Proj.value⟩
    ((x1.map (LayerNorm.forward d b.attn_ln)).map (Linear.forward d b.attn.value)) hfV2
  cases hc : b.cross_attn with
  | none =>
    simp [ResidualAttentionBlock.forward, MultiHeadAttention.forward,
      MultiHeadAttention.kvPair, MultiHeadAttention.freshKV, hsave1, hsave2,
      qkv_attention, applyMask, blockPure, selfAttnPure, mlpStep,
      MultiHeadAttention.queryOf, crossEntries, hc]
  | some p =>
    obtain ⟨cm, cln⟩ := p
    have hfCK2 : Cache.find (cc ++ [(⟨l, false, Proj.key⟩,
        (x1.map (LayerNorm.forward d b.attn_ln)).map (Linear.forward d b.attn.key)),
        (⟨l, false, Proj.value⟩,
        (x1.map (LayerNorm.forward d b.attn_ln)).map (Linear.forward d b.attn.value))])
        ⟨l, true, Proj.key⟩ = none :=
      Cache.find_append_none cc _ _ hfCK (by simp [Cache.find])
    have hsave3 := save_to_cache_absent nc
      (cc ++ [(⟨l, false, Proj.key⟩,
        (x1.map (LayerNorm.forward d b.attn_ln)).map (Linear.forward d b.attn.key)),
        (⟨l, false, Proj.value⟩,
        (x1.map (LayerNorm.forward d b.attn_ln)).map (Linear.forward d b.attn.value))])
      ⟨l, true, Proj.key⟩ (xa.map (Linear.forward d cm.key)) hfCK2
    have hfCV3 : Cache.find (cc ++ [(⟨l, false, Proj.key⟩,
        (x1.map (LayerNorm.forward d b.attn_ln)).map (Linear.forward d b.attn.key)),
        (⟨l, false, Proj.value⟩,
        (x1.map (LayerNorm.forward d b.attn_ln)).map (Linear.forward d b.attn.value)),
        (⟨l, true, Proj.key⟩, xa.map (Linear.forward d cm.key))])
        ⟨l, true, Proj.value⟩ = none :=
      Cache.find_append_none cc _ _ hfCV (by simp [Cache.find])
    have hsave4 := save_to_cache_absent nc
      (cc ++ [(⟨l, false, Proj.key⟩,
        (x1.map (LayerNorm.forward d b.attn_ln)).map (Linear.forward d b.attn.key)),
        (⟨l, false, Proj.value⟩,
        (x1.map (LayerNorm.forward d b.attn_ln)).map (Linear.forward d b.attn.value)),
        (⟨l, true, Proj.key⟩, xa.map (Linear.forward d cm.key))])
      ⟨l, true, Proj.value⟩ (xa.map (Linear.forward d cm.value)) hfCV3
    simp [ResidualAttentionBlock.forward, MultiHeadAttention.forward,
      MultiHeadAttention.kvPair, MultiHeadAttention.freshKV, hsave1, hsave2,
      hfCK2, hsave3, hsave4, qkv_attention, applyMask, blockPure, selfAttnPure,
      crossAttnPure, mlpStep, MultiHeadAttention.queryOf, crossEntries, hc]

/-- One block of a later cached step (`i + 1` tokens already processed): the
hooks concatenate the fresh single-position self-attention projections onto
the cached ones in place, cross-attention reuses its cached audio
projections untouched, and the computed value is `blockStepSucc`. -/
lemma block_forward_succ (d H nc : ℕ) (b : ResidualAttentionBlock) (l : ℕ)
    (xa x1 eK eV : TSeq) (pre rest : Cache)
    (h1 : x1.len = 1) (heKpos : 0 < eK.len) (hnc : 1 ≤ nc)
    (hpK : Cache.find pre ⟨l, false, Proj.key⟩ = none)
    (hpV : Cache.find pre ⟨l, false, Proj.value⟩ = none)
    (hpCK : Cache.find pre ⟨l, true, Proj.key⟩ = none)
    (hpCV : Cache.find pre ⟨l, true, Proj.value⟩ = none) :
    ResidualAttentionBlock.forward d H nc l b x1 (some xa) (some causalMask)
      (some (pre ++ (⟨l, false, Proj.key⟩, eK) :: (⟨l, false, Proj.value⟩, eV) ::
        (crossEntries d l b xa ++ rest))) =
    some (blockStepSucc d H b xa x1 eK eV,
      some (pre ++ (⟨l, false, Proj.key⟩,
          eK.append ((x1.map (LayerNorm.forward d b.attn_ln)).map (Linear.forward d b.attn.key))) ::
        (⟨l, false, Proj.value⟩,
          eV.append ((x1.map (LayerNorm.forward d b.attn_ln)).map (Linear.forward d b.attn.value))) ::
        (crossEntries d l b xa ++ rest))) := by
  have hkRlen : ¬ ((x1.map (LayerNorm.forward d b.attn_ln)).map
      (Linear.forward d b.attn.key)).len > nc := by
    simp only [TSeq.map_len, h1]
    omega
  have hvRlen : ¬ ((x1.map (LayerNorm.forward d b.attn_ln)).map
      (Linear.forward d b.attn.value)).len > nc := by
    simp only [TSeq.map_len, h1]
    omega
  have hne : ¬ (eK.len + 1 = 1) := by omega
  cases hc : b.cross_attn with
  | none =>
    simp only [crossEntries, hc, List.nil_append]
    have hsave1 := save_to_cache_head nc pre
      ((⟨l, false, Proj.value⟩, eV) :: rest)
      ⟨l, false, Proj.key⟩ eK
      ((x1.map (LayerNorm.forward d b.attn_ln)).map (Linear.forward d b.attn.key)) hpK hkRlen
    have hpV2 : Cache.find (pre ++ [(⟨l, false, Proj.key⟩,
        eK.append ((x1.map (LayerNorm.forward d b.attn_ln)).map (Linear.forward d b.attn.key)))])
        ⟨l, false, Proj.value⟩ = none :=
      Cache.find_append_none pre _ _ hpV (by simp [Cache.find])
    have hsave2 : save_to_cache nc
        (pre ++ (⟨l, false, Proj.key⟩,
          eK.append ((x1.map (LayerNorm.forward d b.attn_ln)).map (Linear.forward d b.attn.key))) ::
          (⟨l, false, Proj.value⟩, eV) :: rest)
        ⟨l, false, Proj.value⟩
        ((x1.map (LayerNorm.forward d b.attn_ln)).map (Linear.forward d b.attn.value)) =
        (eV.append ((x1.map (LayerNorm.forward d b.attn_ln)).map (Linear.forward d b.attn.value)),
         pre ++ (⟨l, false, Proj.key⟩,
           eK.append ((x1.map (LayerNorm.forward d b.attn_ln)).map (Linear.forward d b.attn.key))) ::
           (⟨l, false, Proj.value⟩,
             eV.append ((x1.map (LayerNorm.forward d b.attn_ln)).map (Linear.forward d b.attn.value))) ::
           rest) := by
      have h := save_to_cache_head nc
        (pre ++ [(⟨l, false, Proj.key⟩,
          eK.append ((x1.map (LayerNorm.forward d b.attn_ln)).map (Linear.forward d b.attn.key)))])
        rest ⟨l, false, Proj.value⟩ eV
        ((x1.map (LayerNorm.forward d b.attn_ln)).map (Linear.forward d b.attn.value)) hpV2 hvRlen
      simpa [List.append_assoc] using h
    simp [ResidualAttentionBlock.forward, MultiHeadAttention.forward,
      MultiHeadAttention.kvPair, MultiHeadAttention.freshKV, hsave1, hsave2,
      qkv_attention, applyMask, blockStepSucc, MultiHeadAttention.queryOf, hc, h1, hne]
  | some p =>
    obtain ⟨cm, cln⟩ := p
    simp only [crossEntries, hc, List.cons_append, List.nil_append]
    have hsave1 := save_to_cache_head nc pre
      ((⟨l, false, Proj.value⟩, eV) :: (⟨l, true, Proj.key⟩, xa.map (Linear.forward d cm.key)) ::
        (⟨l, true, Proj.value⟩, xa.map (Linear.forward d cm.value)) :: rest)
      ⟨l, false, Proj.key⟩ eK
      ((x1.map (LayerNorm.forward d b.attn_ln)).map (Linear.forward d b.attn.key)) hpK hkRlen
    have hpV2 : Cache.find (pre ++ [(⟨l, false, Proj.key⟩,
        eK.append ((x1.map (LayerNorm.forward d b.attn_ln)).map (Linear.forward d b.attn.key)))])
        ⟨l, false, Proj.value⟩ = none :=
      Cache.find_append_none pre _ _ hpV (by simp [Cache.find])
    have hsave2 : save_to_cache nc
        (pre ++ (⟨l, false, Proj.key⟩,
          eK.append ((x1.map (LayerNorm.forward d b.attn_ln)).map (Linear.forward d b.attn.key))) ::
          (⟨l, false, Proj.value⟩, eV) ::
          (⟨l, true, Proj.key⟩, xa.map (Linear.forward d cm.key)) ::
          (⟨l, true, Proj.value⟩, xa.map (Linear.forward d cm.value)) :: rest)
        ⟨l, false, Proj.value⟩
        ((x1.map (LayerNorm.forward d b.attn_ln)).map (Linear.forward d b.attn.value)) =
        (eV.append ((x1.map (LayerNorm.forward d b.attn_ln)).map (Linear.forward d b.attn.value)),
         pre ++ (⟨l, false, Proj.key⟩,
           eK.append ((x1.map (LayerNorm.forward d b.attn_ln)).map (Linear.forward d b.attn.key))) ::
           (⟨l, false, Proj.value⟩,
             eV.append ((x1.map (LayerNorm.forward d b.attn_ln)).map (Linear.forward d b.attn.value))) ::
           (⟨l, true, Proj.key⟩, xa.map (Linear.forward d cm.key)) ::
           (⟨l, true, Proj.value⟩, xa.map (Linear.forward d cm.value)) :: rest) := by
      have h := save_to_cache_head nc
        (pre ++ [(⟨l, false, Proj.key⟩,
          eK.append ((x1.map (LayerNorm.forward d b.attn_ln)).map (Linear.forward d b.attn.key)))])
        ((⟨l, true, Proj.key⟩, xa.map (Linear.forward d cm.key)) ::
          (⟨l, true, Proj.value⟩, xa.map (Linear.forward d cm.value)) :: rest)
        ⟨l, false, Proj.value⟩ eV
        ((x1.map (LayerNorm.forward d b.attn_ln)).map (Linear.forward d b.attn.value)) hpV2 hvRlen
      simpa [List.append_assoc] using h
    have hfindCK : Cache.find (pre ++ (⟨l, false, Proj.key⟩,
        eK.append ((x1.map (LayerNorm.forward d b.attn_ln)).map (Linear.forward d b.attn.key))) ::
        (⟨l, false, Proj.value⟩,
          eV.append ((x1.map (LayerNorm.forward d b.attn_ln)).map (Linear.forward d b.attn.value))) ::
        (⟨l, true, Proj.key⟩, xa.map (Linear.forward d cm.key)) ::
        (⟨l, true, Proj.value⟩, xa.map (Linear.forward d cm.value)) :: rest)
        ⟨l, true, Proj.key⟩ = some (xa.map (Linear.forward d cm.key)) := by
      rw [Cache.find_append_of_none _ _ _ hpCK]
      simp [Cache.find]
    have hfindCV : Cache.find (pre ++ (⟨l, false, Proj.key⟩,
        eK.append ((x1.map (LayerNorm.forward d b.attn_ln)).map (Linear.forward d b.attn.key))) ::
        (⟨l, false, Proj.value⟩,
          eV.append ((x1.map (LayerNorm.forward d b.attn_ln)).map (Linear.forward d b.attn.value))) ::
        (⟨l, true, Proj.key⟩, xa.map (Linear.forward d cm.key)) ::
        (⟨l, true, Proj.value⟩, xa.map (Linear.forward d cm.value)) :: rest)
        ⟨l, true, Proj.value⟩ = some (xa.map (Linear.forward d cm.value)) := by
      rw [Cache.find_append_of_none _ _ _ hpCV]
      simp [Cache.find]
    simp [ResidualAttentionBlock.forward, MultiHeadAttention.forward,
      MultiHeadAttention.kvPair, MultiHeadAttention.freshKV, hsave1, hsave2,
      hfindCK, hfindCV, qkv_attention, applyMask, blockStepSucc, crossAttnPure,
      MultiHeadAttention.queryOf, hc, h1, hne]

lemma blockStepSucc_len (d H : ℕ) (b : ResidualAttentionBlock) (xa x1 eK eV : TSeq) :
    (blockStepSucc d H b xa x1 eK eV).len = x1.len := by
  unfold blockStepSucc mlpStep
  cases b.cross_attn with
  | none => simp
  | some p => simp

lemma crossEntries_layer (d l : ℕ) (b : ResidualAttentionBlock) (xa : TSeq) :
    ∀ p ∈ crossEntries d l b xa, p.1.layer = l := by
  intro q hq
  cases hc : b.cross_attn with
  | none => rw [crossEntries, hc] at hq; simp at hq
  | some p =>
    obtain ⟨cm, cln⟩ := p
    rw [crossEntries, hc] at hq
    rcases List.mem_cons.1 hq with he | hq2
    · subst he; rfl
    rcases List.mem_cons.1 hq2 with he | hq3
    · subst he; rfl
    · simp at hq3

/-- Main induction for one cached decoder step: running the block suffix
`bs` (layers `l, l+1, …`) on the single new token at step offset `i`, with
the cache holding `pre` (entries of earlier layers) followed by the
invariant entries for `bs`, succeeds; the output row equals row `i` of the
cache-less full pass, and the cache advances to the invariant at `i + 1`. -/
lemma runBlocks_step (d H nc : ℕ) (hnc : 1 ≤ nc) (xa : TSeq)
    (bs : List ResidualAttentionBlock) :
    ∀ (l i : ℕ) (X x1 : TSeq) (pre c : Cache),
      x1.len = 1 → x1.val 0 = X.val i → i < X.len →
      (∀ p ∈ pre, p.1.layer < l) →
      CacheRel d H bs l i X xa c →
      ∃ y1 c2,
        runBlocks d H nc l bs x1 (some xa) (some causalMask) (some (pre ++ c)) =
          some (y1, some (pre ++ c2)) ∧
        y1.len = 1 ∧
        y1.val 0 = (runPure d H (some causalMask) bs (some xa) X).val i ∧
        CacheRel d H bs l (i + 1) X xa c2 := by
  induction bs with
  | nil =>
    intro l i X x1 pre c h1 h2 h3 hpre hrel
    exact ⟨x1, c, rfl, h1, h2, hrel⟩
  | cons b bs ih =>
    intro l i X x1 pre c h1 h2 h3 hpre hrel
    have hfK : Cache.find pre ⟨l, false, Proj.key⟩ = none :=
      Cache.find_none_of_layer_lt pre l _ hpre (le_refl l)
    have hfV : Cache.find pre ⟨l, false, Proj.value⟩ = none :=
      Cache.find_none_of_layer_lt pre l _ hpre (le_refl l)
    have hfCK : Cache.find pre ⟨l, true, Proj.key⟩ = none :=
      Cache.find_none_of_layer_lt pre l _ hpre (le_refl l)
    have hfCV : Cache.find pre ⟨l, true, Proj.value⟩ = none :=
      Cache.find_none_of_layer_lt pre l _ hpre (le_refl l)
    cases i with
    | zero =>
      have hc0 : c = [] := hrel
      subst hc0
      have hfwd := block_forward_zero d H nc b l xa x1 pre hfK hfV hfCK hfCV
      have hx1len : (blockPure d H (some causalMask) b (some xa) x1).len = 1 := by
        rw [blockPure_len, h1]
      have hx1val : (blockPure d H (some causalMask) b (some xa) x1).val 0 =
          (blockPure d H (some causalMask) b (some xa) X).val 0 :=
        blockPure_row_zero d H b xa x1 X h1 h2 h3
      have hXlen : (0 : ℕ) < (blockPure d H (some causalMask) b (some xa) X).len := by
        rw [blockPure_len]; exact h3
      have hpre2 : ∀ p ∈ pre ++ ((⟨l, false, Proj.key⟩,
          (x1.map (LayerNorm.forward d b.attn_ln)).map (Linear.forward d b.attn.key)) ::
          (⟨l, false, Proj.value⟩,
          (x1.map (LayerNorm.forward d b.attn_ln)).map (Linear.forward d b.attn.value)) ::
          crossEntries d l b xa), p.1.layer < l + 1 := by
        intro p hp
        rcases List.mem_append.1 hp with hp1 | hp2
        · exact lt_trans (hpre p hp1) (Nat.lt_succ_self l)
        rcases List.mem_cons.1 hp2 with he | hp3
        · subst he; exact Nat.lt_succ_self l
        rcases List.mem_cons.1 hp3 with he | hp4
        · subst he; exact Nat.lt_succ_self l
        · rw [crossEntries_layer d l b xa p hp4]; exact Nat.lt_succ_self l
      have hrel2 : CacheRel d H bs (l + 1) 0
          (blockPure d H (some causalMask) b (some xa) X) xa [] := by
        cases bs with
        | nil => rfl
        | cons b2 bs2 => rfl
      obtain ⟨y1, c2, hrun, hy1len, hy1val, hrel3⟩ :=
        ih (l + 1) 0 (blockPure d H (some causalMask) b (some xa) X)
          (blockPure d H (some causalMask) b (some xa) x1)
          (pre ++ ((⟨l, false, Proj.key⟩,
            (x1.map (LayerNorm.forward d b.attn_ln)).map (Linear.forward d b.attn.key)) ::
            (⟨l, false, Proj.value⟩,
            (x1.map (LayerNorm.forward d b.attn_ln)).map (Linear.forward d b.attn.value)) ::
            crossEntries d l b xa)) []
          hx1len hx1val hXlen hpre2 hrel2
      rw [List.append_nil] at hrun
      refine ⟨y1, (⟨l, false, Proj.key⟩,
          (x1.map (LayerNorm.forward d b.attn_ln)).map (Linear.forward d b.attn.key)) ::
          (⟨l, false, Proj.value⟩,
          (x1.map (LayerNorm.forward d b.attn_ln)).map (Linear.forward d b.attn.value)) ::
          (crossEntries d l b xa ++ c2), ?_, hy1len, hy1val, ?_⟩
      · rw [List.append_nil]
        simp only [runBlocks, hfwd]
        rw [show pre ++ ((⟨l, false, Proj.key⟩,
            (x1.map (LayerNorm.forward d b.attn_ln)).map (Linear.forward d b.attn.key)) ::
            (⟨l, false, Proj.value⟩,
            (x1.map (LayerNorm.forward d b.attn_ln)).map (Linear.forward d b.attn.value)) ::
            (crossEntries d l b xa ++ c2)) =
          (pre ++ ((⟨l, false, Proj.key⟩,
            (x1.map (LayerNorm.forward d b.attn_ln)).map (Linear.forward d b.attn.key)) ::
            (⟨l, false, Proj.value⟩,
            (x1.map (LayerNorm.forward d b.attn_ln)).map (Linear.forward d b.attn.value)) ::
            crossEntries d l b xa)) ++ c2 from by simp]
        exact hrun
      · refine ⟨_, _, c2, rfl, by simp [h1], by simp [h1], ?_, ?_, hrel3⟩
        · intro t ht
          have ht0 : t = 0 := Nat.lt_one_iff.mp ht
          subst ht0
          show Linear.forward d b.attn.key (LayerNorm.forward d b.attn_ln (x1.val 0)) =
            (selfKOf d b X).val 0
          simp only [selfKOf, TSeq.map_val]
          rw [h2]
        · intro t ht
          have ht0 : t = 0 := Nat.lt_one_iff.mp ht
          subst ht0
          show Linear.forward d b.attn.value (LayerNorm.forward d b.attn_ln (x1.val 0)) =
            (selfVOf d b X).val 0
          simp only [selfVOf, TSeq.map_val]
          rw [h2]
    | succ i2 =>
      obtain ⟨eK, eV, rest, hcshape, heK, heV, hkag, hvag, hrest⟩ := hrel
      subst hcshape
      have hfwd := block_forward_succ d H nc b l xa x1 eK eV pre rest h1 (by omega) hnc
        hfK hfV hfCK hfCV
      have hx1len : (blockStepSucc d H b xa x1 eK eV).len = 1 := by
        rw [blockStepSucc_len, h1]
      have hx1val := blockStepSucc_row d H b xa x1 X eK eV i2 h1 h2 h3 heK heV hkag hvag
      have hXlen : i2 + 1 < (blockPure d H (some causalMask) b (some xa) X).len := by
        rw [blockPure_len]; exact h3
      have hpre2 : ∀ p ∈ pre ++ ((⟨l, false, Proj.key⟩,
          eK.append ((x1.map (LayerNorm.forward d b.attn_ln)).map (Linear.forward d b.attn.key))) ::
          (⟨l, false, Proj.value⟩,
          eV.append ((x1.map (LayerNorm.forward d b.attn_ln)).map (Linear.forward d b.attn.value))) ::
          crossEntries d l b xa), p.1.layer < l + 1 := by
        intro p hp
        rcases List.mem_append.1 hp with hp1 | hp2
        · exact lt_trans (hpre p hp1) (Nat.lt_succ_self l)
        rcases List.mem_cons.1 hp2 with he | hp3
        · subst he; exact Nat.lt_succ_self l
        rcases List.mem_cons.1 hp3 with he | hp4
        · subst he; exact Nat.lt_succ_self l
        · rw [crossEntries_layer d l b xa p hp4]; exact Nat.lt_succ_self l
      obtain ⟨y1, c2, hrun, hy1len, hy1val, hrel3⟩ :=
        ih (l + 1) (i2 + 1) (blockPure d H (some causalMask) b (some xa) X)
          (blockStepSucc d H b xa x1 eK eV)
          (pre ++ ((⟨l, false, Proj.key⟩,
            eK.append ((x1.map (LayerNorm.forward d b.attn_ln)).map (Linear.forward d b.attn.key))) ::
            (⟨l, false, Proj.value⟩,
            eV.append ((x1.map (LayerNorm.forward d b.attn_ln)).map (Linear.forward d b.attn.value))) ::
            crossEntries d l b xa)) rest
          hx1len hx1val hXlen hpre2 hrest
      refine ⟨y1, (⟨l, false, Proj.key⟩,
          eK.append ((x1.map (LayerNorm.forward d b.attn_ln)).map (Linear.forward d b.attn.key))) ::
          (⟨l, false, Proj.value⟩,
          eV.append ((x1.map (LayerNorm.forward d b.attn_ln)).map (Linear.forward d b.attn.value))) ::
          (crossEntries d l b xa ++ c2), ?_, hy1len, hy1val, ?_⟩
      · simp only [runBlocks, hfwd]
        rw [show pre ++ ((⟨l, false, Proj.key⟩,
            eK.append ((x1.map (LayerNorm.forward d b.attn_ln)).map (Linear.forward d b.attn.key))) ::
            (⟨l, false, Proj.value⟩,
            eV.append ((x1.map (LayerNorm.forward d b.attn_ln)).map (Linear.forward d b.attn.value))) ::
            (crossEntries d l b xa ++ rest)) =
          (pre ++ ((⟨l, false, Proj.key⟩,
            eK.append ((x1.map (LayerNorm.forward d b.attn_ln)).map (Linear.forward d b.attn.key))) ::
            (⟨l, false, Proj.value⟩,
            eV.append ((x1.map (LayerNorm.forward d b.attn_ln)).map (Linear.forward d b.attn.value))) ::
            crossEntries d l b xa)) ++ rest from by simp]
        rw [show pre ++ ((⟨l, false, Proj.key⟩,
            eK.append ((x1.map (LayerNorm.forward d b.attn_ln)).map (Linear.forward d b.attn.key))) ::
            (⟨l, false, Proj.value⟩,
            eV.append ((x1.map (LayerNorm.forward d b.attn_ln)).map (Linear.forward d b.attn.value))) ::
            (crossEntries d l b xa ++ c2)) =
          (pre ++ ((⟨l, false, Proj.key⟩,
            eK.append ((x1.map (LayerNorm.forward d b.attn_ln)).map (Linear.forward d b.attn.key))) ::
            (⟨l, false, Proj.value⟩,
            eV.append ((x1.map (LayerNorm.forward d b.attn_ln)).map (Linear.forward d b.attn.value))) ::
            crossEntries d l b xa)) ++ c2 from by simp]
        exact hrun
      · refine ⟨_, _, c2, rfl, by simp [heK, h1], by simp [heV, h1], ?_, ?_, hrel3⟩
        · intro t ht
          by_cases htl : t < eK.len
          · rw [TSeq.append_val_left _ _ _ htl]
            exact hkag t (by omega)
          · rw [TSeq.append_val_right _ _ _ htl]
            have ht1 : t = i2 + 1 := by omega
            have ht2 : t - eK.len = 0 := by omega
            rw [ht2, ht1]
            show Linear.forward d b.attn.key (LayerNorm.forward d b.attn_ln (x1.val 0)) =
              (selfKOf d b X).val (i2 + 1)
            simp only [selfKOf, TSeq.map_val]
            rw [h2]
        · intro t ht
          by_cases htl : t < eV.len
          · rw [TSeq.append_val_left _ _ _ htl]
            exact hvag t (by omega)
          · rw [TSeq.append_val_right _ _ _ htl]
            have ht1 : t = i2 + 1 := by omega
            have ht2 : t - eV.len = 0 := by omega
            rw [ht2, ht1]
            show Linear.forward d b.attn.value (LayerNorm.forward d b.attn_ln (x1.val 0)) =
              (selfVOf d b X).val (i2 + 1)
            simp only [selfVOf, TSeq.map_val]
            rw [h2]

lemma getD_append_length (done rest : List ℕ) (t : ℕ) :
    (done ++ t :: rest).getD done.length 0 = t := by
  induction done with
  | nil => rfl
  | cons a done ih => simpa [List.getD_cons_succ] using ih

/-- One full cached decoder call on the single token at position `i`:
the offset read from the cache equals `i`, the call succeeds, the cache
advances, and the returned logits row equals row `i` of the cache-less
full-sequence logits. -/
lemma forward_step (D : TextDecoder) (xa : TSeq) (ts : List ℕ) (i : ℕ) (c : Cache)
    (hbs : D.blocks ≠ []) (hi : i < ts.length) (hctx : 1 ≤ D.n_ctx)
    (hrel : CacheRel D.n_state D.n_head D.blocks 0 i (D.embSeq ts 0) xa c) :
    ∃ lg c2, D.forward [ts.getD i 0] xa (some c) = some (lg, some c2) ∧
      lg.len = 1 ∧
      CacheRel D.n_state D.n_head D.blocks 0 (i + 1) (D.embSeq ts 0) xa c2 ∧
      ∀ v, lg.val 0 v = (D.logits (runPure D.n_state D.n_head (some causalMask) D.blocks
        (some xa) (D.embSeq ts 0))).val i v := by
  have hoff : offsetOf (some c) = i := by
    cases hb : D.blocks with
    | nil => exact absurd hb hbs
    | cons b bs =>
      rw [hb] at hrel
      cases i with
      | zero =>
        have hc0 : c = [] := hrel
        subst hc0
        rfl
      | succ i2 =>
        obtain ⟨eK, eV, rest, hcshape, heK, _, _, _, _⟩ := hrel
        subst hcshape
        simp [offsetOf, heK]
  have h1 : (D.embSeq [ts.getD i 0] i).len = 1 := rfl
  have h2 : (D.embSeq [ts.getD i 0] i).val 0 = (D.embSeq ts 0).val i := by
    funext ch
    show D.token_embedding ([ts.getD i 0].getD 0 0) ch + D.positional_embedding (i + 0) ch =
      D.token_embedding (ts.getD i 0) ch + D.positional_embedding (0 + i) ch
    rw [Nat.add_zero, Nat.zero_add]
    rfl
  have h3 : i < (D.embSeq ts 0).len := hi
  obtain ⟨y1, c2, hrun, hylen, hyval, hrel2⟩ :=
    runBlocks_step D.n_state D.n_head D.n_ctx hctx xa D.blocks 0 i (D.embSeq ts 0)
      (D.embSeq [ts.getD i 0] i) [] c h1 h2 h3 (by intro p hp; simp at hp) hrel
  rw [List.nil_append, List.nil_append] at hrun
  refine ⟨D.logits y1, c2, ?_, ?_, hrel2, ?_⟩
  · show (match runBlocks D.n_state D.n_head D.n_ctx 0 D.blocks
        (D.embSeq [ts.getD i 0] (offsetOf (some c))) (some xa) (some causalMask) (some c) with
      | none => none
      | some (y, kv2) => some (D.logits y, kv2)) = some (D.logits y1, some c2)
    rw [hoff, hrun]
  · show y1.len = 1
    exact hylen
  · intro v
    show (∑ ch ∈ Finset.range D.n_state,
        LayerNorm.forward D.n_state D.ln (y1.val 0) ch * D.token_embedding v ch) =
      ∑ ch ∈ Finset.range D.n_state,
        LayerNorm.forward D.n_state D.ln
          ((runPure D.n_state D.n_head (some causalMask) D.blocks (some xa)
            (D.embSeq ts 0)).val i) ch * D.token_embedding v ch
    simp only [hyval]

/-- Decoding the remaining tokens one at a time from a cache satisfying the
invariant ends with the logits row of the last full-pass position. -/
lemma decodeLast_eq (D : TextDecoder) (xa : TSeq) (ts : List ℕ)
    (hbs : D.blocks ≠ []) (hctx : 1 ≤ D.n_ctx) :
    ∀ (rest done : List ℕ) (c : Cache), ts = done ++ rest → rest ≠ [] →
      CacheRel D.n_state D.n_head D.blocks 0 done.length (D.embSeq ts 0) xa c →
      ∃ lg c2, decodeLast D xa rest c = some (lg, c2) ∧ lg.len = 1 ∧
        ∀ v, lg.val 0 v = (D.logits (runPure D.n_state D.n_head (some causalMask) D.blocks
          (some xa) (D.embSeq ts 0))).val (ts.length - 1) v := by
  intro rest
  induction rest with
  | nil =>
    intro done c _ hne _
    exact absurd rfl hne
  | cons t rest2 ih =>
    intro done c hsplit hne hrel
    have htok : ts.getD done.length 0 = t := by
      rw [hsplit]
      exact getD_append_length done rest2 t
    have hi : done.length < ts.length := by
      rw [hsplit]
      simp
    obtain ⟨lg, c2, hfwd, hlglen, hrel2, hlgval⟩ :=
      forward_step D xa ts done.length c hbs hi hctx hrel
    rw [htok] at hfwd
    cases rest2 with
    | nil =>
      refine ⟨lg, c2, ?_, hlglen, ?_⟩
      · simp only [decodeLast, hfwd]
      · have hlast : ts.length - 1 = done.length := by
          rw [hsplit]
          simp
        rw [hlast]
        exact hlgval
    | cons t2 rest3 =>
      have hsplit2 : ts = (done ++ [t]) ++ t2 :: rest3 := by
        rw [hsplit]
        simp
      have hrel2' : CacheRel D.n_state D.n_head D.blocks 0 (done ++ [t]).length
          (D.embSeq ts 0) xa c2 := by
        rw [List.length_append, List.length_singleton]
        exact hrel2
      obtain ⟨lg2, c3, hdec, hlen3, hval3⟩ :=
        ih (done ++ [t]) c2 hsplit2 (by simp) hrel2'
      refine ⟨lg2, c3, ?_, hlen3, hval3⟩
      simp only [decodeLast, hfwd]
      exact hdec

/-- Claim C1 (cache equivalence): for a fixed audio-feature tensor and a
non-empty token sequence that fits in the decoder's context (and a decoder
with at least one block, as every Whisper configuration has), decoding the
tokens one at a time through `TextDecoder.forward` with the KV cache
installed empty — the offset advancing with the cache each call — succeeds,
the full no-cache call on the whole sequence succeeds, and the logits row of
the final incremental step is exactly equal (reals model floats, so
float-tolerance becomes equality) to the logits row of the last position of
the full pass. -/
theorem claim_C1 (D : TextDecoder) (xa : TSeq) (ts : List ℕ)
    (hne : ts ≠ []) (hctx : ts.length ≤ D.n_ctx) (hbs : D.blocks ≠ []) :
    ∃ lgLast cFinal lgFull,
      decodeLast D xa ts [] = some (lgLast, cFinal) ∧
      D.forward ts xa none = some (lgFull, none) ∧
      lgLast.len = 1 ∧ lgFull.len = ts.length ∧
      ∀ v, lgLast.val 0 v = lgFull.val (ts.length - 1) v := by
  have hpos : 1 ≤ ts.length := Nat.succ_le_of_lt (List.length_pos.2 hne)
  have hctx1 : 1 ≤ D.n_ctx := le_trans hpos hctx
  have hfull : D.forward ts xa none =
      some (D.logits (runPure D.n_state D.n_head (some causalMask) D.blocks (some xa)
        (D.embSeq ts 0)), none) := by
    show (match runBlocks D.n_state D.n_head D.n_ctx 0 D.blocks
        (D.embSeq ts (offsetOf none)) (some xa) (some causalMask) none with
      | none => none
      | some (y, kv2) => some (D.logits y, kv2)) = _
    rw [runBlocks_none D.n_state D.n_head D.n_ctx (some causalMask) (some xa) D.blocks 0
      (D.embSeq ts (offsetOf none))]
    rfl
  have hrel0 : CacheRel D.n_state D.n_head D.blocks 0 (List.length ([] : List ℕ))
      (D.embSeq ts 0) xa [] := by
    cases D.blocks with
    | nil => rfl
    | cons b bs => rfl
  obtain ⟨lg, c2, hdec, hlen, hval⟩ :=
    decodeLast_eq D xa ts hbs hctx1 ts [] [] rfl hne hrel0
  have hfulllen : (D.logits (runPure D.n_state D.n_head (some causalMask) D.blocks (some xa)
      (D.embSeq ts 0))).len = ts.length := by
    show (runPure D.n_state D.n_head (some causalMask) D.blocks (some xa)
      (D.embSeq ts 0)).len = ts.length
    rw [runPure_len]
    rfl
  exact ⟨lg, c2, _, hdec, hfull, hlen, hfulllen, hval⟩

/-- Concrete biased linear layer for witnesses. -/
def linBW : Linear := ⟨fun _ _ => 0, some fun _ => 0⟩

/-- Concrete decoder block (with cross-attention) for witnesses. -/
def blockW : ResidualAttentionBlock := ⟨mhaW, lnW, some (mhaW, lnW), linBW, linBW, lnW⟩

/-- Concrete one-block decoder for witnesses. -/
def D1 : TextDecoder := ⟨2, 4, 1, 1, fun _ _ => 0, fun _ _ => 0, [blockW], lnW⟩

/-- Concrete audio features of length 2 for witnesses. -/
def xaW2 : TSeq := ⟨2, fun _ _ => 0⟩

/-- Witness for claim C1: the cache-vs-no-cache equivalence instantiated on
a concrete one-block decoder, two tokens and audio features of length 2. -/
theorem claim_C1_witness :
    ∃ lgLast cFinal lgFull,
      decodeLast D1 xaW2 [0, 1] [] = some (lgLast, cFinal) ∧
      TextDecoder.forward D1 [0, 1] xaW2 none = some (lgFull, none) ∧
      lgLast.len = 1 ∧ lgFull.len = [0, 1].length ∧
      ∀ v, lgLast.val 0 v = lgFull.val ([0, 1].length - 1) v :=
  claim_C1 D1 xaW2 [0, 1] (List.cons_ne_nil _ _) (by decide)
    (List.cons_ne_nil _ _)

/-- First incremental decoding call on the concrete one-block decoder with
audio features of length 2, starting from the freshly installed empty cache. -/
def step1 : Option (TSeq × Option Cache) := TextDecoder.forward D1 [0] xaW2 (some [])

/-- Counterexample for claim C3: after one real decoding step the cache is
active and non-empty, the layer-0 self-attention key entry has sequence
length 1 while the layer-0 cross-attention key entry has sequence length 2
(the audio-context length) — so the cached projections do NOT all share the
same length — and the offset the next call computes is 1, which differs from
the length of the cross-attention projection; hence the offset does not
equal "the sequence length already cached for any one projection". -/
theorem claim_C3_counterexample :
    (step1.bind Prod.snd).map (fun c =>
      (offsetOf (some c),
       (Cache.find c ⟨0, false, Proj.key⟩).map TSeq.len,
       (Cache.find c ⟨0, true, Proj.key⟩).map TSeq.len)) =
    some (1, some 1, some 2) := by
  have hrel0 : CacheRel D1.n_state D1.n_head D1.blocks 0 0 (D1.embSeq [0] 0) xaW2 [] := rfl
  obtain ⟨lg, c2, hfwd, _, hrel, _⟩ :=
    forward_step D1 xaW2 [0] 0 [] (List.cons_ne_nil _ _) (by decide) (by decide) hrel0
  have hfwd2 : TextDecoder.forward D1 [0] xaW2 (some []) = some (lg, some c2) := hfwd
  have hrel2 : CacheRel 1 1 [blockW] 0 1 (D1.embSeq [0] 0) xaW2 c2 := hrel
  obtain ⟨eK, eV, rest, hcshape, heK, heV, _, _, hrest⟩ := hrel2
  have hrest2 : rest = [] := hrest
  subst hrest2
  subst hcshape
  simp only [step1]
  rw [hfwd2]
  simp [offsetOf, heK, Cache.find, crossEntries, blockW, xaW2]

/-- Claim C3 (amended): when a cache is active and non-empty,
`TextDecoder.forward` starts at the offset equal to the sequence length of
the FIRST-inserted cache entry — for caches produced by the decoder's own
hooks, the layer-0 self-attention key projection, whose length is the number
of positions already decoded; self-attention entries share that length, but
cross-attention entries instead have the audio-feature length (see the
counterexample); when the cache is absent or empty the offset is 0; and the
positional-embedding rows `[offset : offset + len(tokens)]` are added to the
token embeddings. -/
theorem claim_C3_amended :
    (offsetOf none = 0 ∧ offsetOf (some ([] : Cache)) = 0 ∧
      ∀ (id : ModuleId) (t : TSeq) (rest : Cache),
        offsetOf (some ((id, t) :: rest)) = t.len) ∧
    (∀ (D : TextDecoder) (tokens : List ℕ) (xa : TSeq) (kv : Option Cache),
      D.forward tokens xa kv =
        match runBlocks D.n_state D.n_head D.n_ctx 0 D.blocks
            (D.embSeq tokens (offsetOf kv)) (some xa) (some causalMask) kv with
        | none => none
        | some (y, kv2) => some (D.logits y, kv2)) ∧
    (∀ (D : TextDecoder) (tokens : List ℕ) (off t ch : ℕ),
      (D.embSeq tokens off).val t ch =
        D.token_embedding (tokens.getD t 0) ch + D.positional_embedding (off + t) ch) ∧
    (∀ (d H : ℕ) (b : ResidualAttentionBlock) (bs : List ResidualAttentionBlock)
      (X xa : TSeq) (c : Cache) (i : ℕ),
      CacheRel d H (b :: bs) 0 (i + 1) X xa c →
        offsetOf (some c) = i + 1 ∧
        (∃ eK, Cache.find c ⟨0, false, Proj.key⟩ = some eK ∧ eK.len = i + 1) ∧
        (∀ cm cln, b.cross_attn = some (cm, cln) →
          ∃ kX, Cache.find c ⟨0, true, Proj.key⟩ = some kX ∧ kX.len = xa.len)) := by
  refine ⟨⟨rfl, rfl, fun id t rest => rfl⟩, fun D tokens xa kv => rfl,
    fun D tokens off t ch => rfl, ?_⟩
  intro d H b bs X xa c i hrel
  obtain ⟨eK, eV, rest, hcshape, heK, heV, _, _, _⟩ := hrel
  subst hcshape
  refine ⟨by simp [offsetOf, heK], ⟨eK, by simp [Cache.find], heK⟩, ?_⟩
  intro cm cln hc
  refine ⟨xa.map (Linear.forward d cm.key), ?_, rfl⟩
  simp [Cache.find, crossEntries, hc]

/-- Concrete cache satisfying the step-1 invariant, for the C3 witness. -/
def cW : Cache :=
  (⟨0, false, Proj.key⟩, ⟨1, (selfKOf 1 blockW seqW1).val⟩) ::
  (⟨0, false, Proj.value⟩, ⟨1, (selfVOf 1 blockW seqW1).val⟩) ::
  (crossEntries 1 0 blockW xaW2 ++ [])

/-- Witness for the amended claim C3 at a concrete reachable-shape cache. -/
theorem claim_C3_witness :
    offsetOf (some cW) = 1 ∧
    (∃ eK, Cache.find cW ⟨0, false, Proj.key⟩ = some eK ∧ eK.len = 1) ∧
    (∃ kX, Cache.find cW ⟨0, true, Proj.key⟩ = some kX ∧ kX.len = xaW2.len) := by
  have hrelW : CacheRel 1 1 [blockW] 0 1 seqW1 xaW2 cW :=
    ⟨_, _, [], rfl, rfl, rfl, fun t _ => rfl, fun t _ => rfl, rfl⟩
  have h := claim_C3_amended.2.2.2 1 1 blockW [] seqW1 xaW2 cW 0 hrelW
  exact ⟨h.1, h.2.1, h.2.2 mhaW lnW rfl⟩

/-- Witness for claim C5: odd channels fatal at `channels = 3`; the spec
formula holds at `length = 2`, `channels = 4`. -/
theorem claim_C5_witness :
    sinusoids 1 3 10000 = none ∧
    (∃ T, sinusoids 2 4 10000 = some T ∧
      ∀ t i, i < 4 / 2 →
        T t i = (specScaledTime 4 10000 t i).sin ∧
        T t (4 / 2 + i) = (specScaledTime 4 10000 t i).cos) :=
  ⟨(claim_C5 1 3 10000).2.1 (by decide), (claim_C5 2 4 10000).2.2 (by decide)⟩

/-- Witness for claim C10: the all-NaN table at `channels = 2` and a finite
table at `channels = 4`, both of length 3. -/
theorem claim_C10_witness :
    (∃ T, sinusoids 3 2 10000 = some T ∧ ∀ t, ∀ c < 2, T t c = FVal.nan) ∧
    (∃ T, sinusoids 3 4 10000 = some T ∧ ∀ t c, (T t c).isFin) :=
  ⟨(claim_C10 3).1, (claim_C10 3).2 4 (by decide) (by decide)⟩

/-- Witness for claim C6: the store-as-is branch on an empty cache and the
concatenation branch on a one-entry cache, at concrete inputs. -/
theorem claim_C6_witness :
    save_to_cache 4 [] idKW seqW1 = (seqW1, Cache.insert [] idKW seqW1) ∧
    save_to_cache 4 [(idKW, seqW1)] idKW seqW1 =
      (seqW1.append seqW1, Cache.insert [(idKW, seqW1)] idKW (seqW1.append seqW1)) :=
  ⟨(claim_C6 4 [] idKW seqW1).1 (Or.inl rfl),
   (claim_C6 4 [(idKW, seqW1)] idKW seqW1).2.1 seqW1 (by simp [Cache.find]) (by decide)⟩
